import Mathlib

/-!
# Verification of the Encodium schema/serialization library

A shallow embedding of `encodium/__init__.py` (the deprecated `Field`-based
schema, validation and wire-codec engine) together with proofs about its
length framing, type plugins, record construction and the
serialize/deserialize round trip.

Conventions used throughout:

* Python `bytes` values are `List Nat` (each entry a byte value).
* Python `str` values are `List Nat` of Unicode code points; `len(s)` is the
  number of code points, matching Python.
* Python exceptions are modelled with `Except Err`, where `Err.validation`
  is `encodium.ValidationError` (the only exception class the library
  catches) and `Err.other` covers all other runtime errors
  (`OverflowError`, `TypeError`, `UnicodeDecodeError`, ...).
* Recursive functions over schemas/values are written with an explicit fuel
  argument (structural recursion on the fuel) so that every definition
  computes by `rfl`/`decide`; public wrappers instantiate the fuel with
  `sizeOf` of the schema, which is always sufficient.
-/


/-- Exceptions: `validation msg` is `encodium.ValidationError(msg)`; `other`
is any non-`ValidationError` Python exception (never caught by the library). -/
inductive Err where
  | validation (msg : String)
  | other (msg : String)
deriving DecidableEq

/-! ## Python integer primitives

`int.bit_length`, `int.to_bytes(k, 'big', signed=...)` and
`int.from_bytes(data, 'big', signed=...)`, as used by the length codec and
the `Integer` plugin. -/
/-- Fueled helper for `bit_length`; the fuel only serves to make the
recursion structural (any fuel `≥ n` gives the true bit length of `n`). -/
def bitLenF : Nat → Nat → Nat
  | 0, _ => 0
  | f + 1, n => if n = 0 then 0 else bitLenF f (n / 2) + 1

/-- Python `n.bit_length()` for a non-negative `n`. -/
def bit_length (n : Nat) : Nat := bitLenF n n

/-- Python `i.bit_length()` (the bit length of the absolute value). -/
def int_bit_length (i : Int) : Nat := bit_length i.natAbs

/-- Big-endian base-256 digits of `n`, exactly `k` bytes wide: the result of
Python `n.to_bytes(k, 'big')` when `n < 256^k` (Python raises otherwise;
call sites either guard the bound or prove it). -/
def to_bytes_be : Nat → Nat → List Nat
  | 0, _ => []
  | k + 1, n => to_bytes_be k (n / 256) ++ [n % 256]

/-- Python `int.from_bytes(data, 'big')` (unsigned). -/
def from_bytes_be (bs : List Nat) : Nat := bs.foldl (fun a b => a * 256 + b) 0

/-- Python `int.from_bytes(data, 'big', signed=True)`: two's-complement
reading (subtract `256^len` when the top bit is set). -/
def from_bytes_signed (bs : List Nat) : Int :=
  let u := from_bytes_be bs
  if 256 ^ bs.length ≤ 2 * u then (u : Int) - (256 ^ bs.length : Nat) else (u : Int)

/-- Python `i.to_bytes(k, 'big', signed=s)`: `none` models the
`OverflowError` raised when `i` does not fit in `k` bytes. -/
def int_to_bytes (k : Nat) (i : Int) (signed : Bool) : Option (List Nat) :=
  if signed then
    if -((256 : Int) ^ k) ≤ 2 * i ∧ 2 * i < (256 : Int) ^ k then
      some (to_bytes_be k (i % ((256 : Int) ^ k)).toNat)
    else none
  else
    if 0 ≤ i ∧ i < (256 : Int) ^ k then some (to_bytes_be k i.toNat) else none

/-! ## Length codec

`encode_length` / `decode_length` are the nested helper functions of
`Field.serialize` / `Field.deserialize` (the `List` plugin repeats the same
two definitions verbatim). -/
/-- Python slice `data[a:b]` (indices clamp to the list) on byte lists. -/
def pyslice (data : List Nat) (a b : Nat) : List Nat := (data.take b).drop a

/-- `encode_length` (lines 290-297): minimal big-endian bytes of the length;
lengths `≥ 0xfa` get a tag byte `0xf9 + k` in front, and more than 6 length
bytes raise `ValidationError("length too big")`. -/
def encode_length (length : Nat) : Except Err (List Nat) :=
  let encoded := to_bytes_be ((bit_length length + 7) >>> 3) length
  if 0xfa ≤ length then
    if 6 < encoded.length then Except.error (Err.validation "length too big")
    else Except.ok ((encoded.length + 0xf9) :: encoded)
  else Except.ok encoded

/-- `decode_length` (lines 311-318): returns `(length, length_length)` read
at `index`. -/
def decode_length (data : List Nat) (index : Nat) : Nat × Nat :=
  let length := from_bytes_be (pyslice data index (index + 1))
  if 0xfa ≤ length then
    (from_bytes_be (pyslice data (index + 1) (index + 1 + (length - 0xf9))),
      1 + (length - 0xf9))
  else (length, 1)

/-- The chunk-parsing `while` loop of `Field.deserialize` / `List.deserialize`
(lines 320-325 / 429-434), fueled: each iteration reads a length at `i`,
slices the payload, and advances. -/
def parseChunksF : Nat → List Nat → Nat → List (List Nat)
  | 0, _, _ => []
  | fuel + 1, data, i =>
    if i < data.length then
      let p := decode_length data i
      pyslice data (i + p.2) (i + p.2 + p.1) :: parseChunksF fuel data (i + p.2 + p.1)
    else []

/-- The loop itself, starting at index 1 (the format marker is skipped, not
checked); `data.length` iterations of fuel always suffice since the index
strictly increases. -/
def parseChunks (data : List Nat) : List (List Nat) := parseChunksF data.length data 1

/-- Correspondence between one wire chunk `w` and the payload `item` it
frames: the absence marker `0x00` frames the empty payload, and a
non-empty payload is framed by a successful `encode_length` of its length. -/
def GoodChunk (w item : List Nat) : Prop :=
  (item = [] ∧ w = [0]) ∨
  (item ≠ [] ∧ ∃ e, encode_length item.length = Except.ok e ∧ w = e ++ item)

/-- The concatenation of the wire halves of a chunk list. -/
def joinWires (ps : List (List Nat × List Nat)) : List Nat := (ps.map Prod.fst).flatten

/-! ## UTF-8

Models Python's `s.encode('utf-8')` and `data.decode('utf-8')` over code
point lists (RFC 3629: 1-4 byte sequences, strict decoding that rejects
continuation errors, overlong forms, surrogates and values above
`0x10FFFF`). -/
/-- A code point that `str.encode('utf-8')` accepts: below `0x110000` and
not a surrogate. -/
def validScalar (c : Nat) : Bool := decide (c < 0x110000 ∧ (c < 0xd800 ∨ 0xe000 ≤ c))

/-- UTF-8 encoding of a single code point (assumed valid at call sites). -/
def utf8EncodeChar (c : Nat) : List Nat :=
  if c < 0x80 then [c]
  else if c < 0x800 then [0xc0 + c / 0x40, 0x80 + c % 0x40]
  else if c < 0x10000 then
    [0xe0 + c / 0x1000, 0x80 + c / 0x40 % 0x40, 0x80 + c % 0x40]
  else
    [0xf0 + c / 0x40000, 0x80 + c / 0x1000 % 0x40, 0x80 + c / 0x40 % 0x40,
      0x80 + c % 0x40]

/-- `s.encode('utf-8')`. -/
def utf8Encode (s : List Nat) : List Nat := (s.map utf8EncodeChar).flatten

/-- Decode one UTF-8 sequence from the front: `some (codePoint, rest)`, or
`none` on malformed input (continuation errors, overlong forms, surrogates,
out-of-range values). -/
def utf8Step : List Nat → Option (Nat × List Nat)
  | [] => none
  | b :: rest =>
    if b < 0x80 then some (b, rest)
    else if b < 0xe0 then
      match rest with
      | b1 :: rest1 =>
        if 0xc2 ≤ b ∧ 0x80 ≤ b1 ∧ b1 < 0xc0 then
          some ((b - 0xc0) * 0x40 + (b1 - 0x80), rest1)
        else none
      | [] => none
    else if b < 0xf0 then
      match rest with
      | b1 :: b2 :: rest2 =>
        if 0x80 ≤ b1 ∧ b1 < 0xc0 ∧ 0x80 ≤ b2 ∧ b2 < 0xc0 then
          if 0x800 ≤ (b - 0xe0) * 0x1000 + (b1 - 0x80) * 0x40 + (b2 - 0x80) ∧
              ((b - 0xe0) * 0x1000 + (b1 - 0x80) * 0x40 + (b2 - 0x80) < 0xd800 ∨
                0xe000 ≤ (b - 0xe0) * 0x1000 + (b1 - 0x80) * 0x40 + (b2 - 0x80)) then
            some ((b - 0xe0) * 0x1000 + (b1 - 0x80) * 0x40 + (b2 - 0x80), rest2)
          else none
        else none
      | _ => none
    else
      match rest with
      | b1 :: b2 :: b3 :: rest3 =>
        if b < 0xf5 ∧ 0x80 ≤ b1 ∧ b1 < 0xc0 ∧ 0x80 ≤ b2 ∧ b2 < 0xc0 ∧ 0x80 ≤ b3 ∧
            b3 < 0xc0 then
          if 0x10000 ≤ (b - 0xf0) * 0x40000 + (b1 - 0x80) * 0x1000 + (b2 - 0x80) * 0x40 +
              (b3 - 0x80) ∧
              (b - 0xf0) * 0x40000 + (b1 - 0x80) * 0x1000 + (b2 - 0x80) * 0x40 +
                (b3 - 0x80) < 0x110000 then
            some ((b - 0xf0) * 0x40000 + (b1 - 0x80) * 0x1000 + (b2 - 0x80) * 0x40 +
              (b3 - 0x80), rest3)
          else none
        else none
      | _ => none

/-- Fueled strict UTF-8 decoding loop; each step consumes at least one byte,
so `data.length` fuel always suffices. -/
def utf8DecodeF : Nat → List Nat → Option (List Nat)
  | 0, data => if data = [] then some [] else none
  | fuel + 1, data =>
    if data = [] then some []
    else
      match utf8Step data with
      | some (c, rest) => (utf8DecodeF fuel rest).map (fun s => c :: s)
      | none => none

/-- Python `data.decode('utf-8')`, `none` modelling `UnicodeDecodeError`. -/
def utf8Decode (data : List Nat) : Option (List Nat) := utf8DecodeF data.length data

/-! ## Data model

A Python value that can sit in a field: `bool`, `int`, `str` (code point
list), `bytes` (byte list), `list` (elements may be `None`), or an
Encodium record instance (class name plus the field values in schema
order).  `Option Value` adds Python's `None`. -/
inductive Value where
  | vbool (b : Bool)
  | vint (i : Int)
  | vstr (s : List Nat)
  | vbytes (bs : List Nat)
  | vlist (es : List (Option Value))
  | vrec (name : String) (vals : List (Option Value))

mutual
/-- A field declaration (a `Field` subclass instance): its type plus the
`optional` and `default` options.  A callable default is modelled by the
value it returns. -/
inductive FieldSpec where
  | mk (optional : Bool) (default : Option Value) (ty : FieldTy)

/-- The built-in field kinds.  `record` is a user `Field` subclass with a
`fields()` declaration: `name` is the subclass name and `fields` the
ordered `(key, field)` list that `get_fields` recovers. -/
inductive FieldTy where
  | boolean
  | integer (signed : Bool)
  | str (max_length : Option Nat)
  | bytes
  | list (inner : FieldSpec)
  | record (name : String) (fields : FieldList)

/-- An ordered association list of field declarations (kept as its own
inductive so that structural recursion over schemas stays primitive). -/
inductive FieldList where
  | nil
  | cons (key : String) (f : FieldSpec) (rest : FieldList)
end

def FieldSpec.optional : FieldSpec → Bool
  | .mk o _ _ => o

def FieldSpec.default : FieldSpec → Option Value
  | .mk _ d _ => d

def FieldSpec.ty : FieldSpec → FieldTy
  | .mk _ _ t => t

def FieldList.toList : FieldList → List (String × FieldSpec)
  | .nil => []
  | .cons k f rest => (k, f) :: rest.toList

mutual
/-- A structural size for schemas, used only to instantiate fuel; it
dominates the nesting depth of the schema. -/
def FieldSpec.size : FieldSpec → Nat
  | .mk _ _ t => t.size + 1

def FieldTy.size : FieldTy → Nat
  | .boolean => 1
  | .integer _ => 1
  | .str _ => 1
  | .bytes => 1
  | .list inner => inner.size + 1
  | .record _ fs => fs.size + 1

def FieldList.size : FieldList → Nat
  | .nil => 1
  | .cons _ f rest => f.size + rest.size + 1
end

/-- `value.__class__.__name__` (with `None` giving `"NoneType"`); a record
instance's class is the dynamically created `<Name>Instance` type
(line 236). -/
def pyClassName : Option Value → String
  | none => "NoneType"
  | some (.vbool _) => "bool"
  | some (.vint _) => "int"
  | some (.vstr _) => "str"
  | some (.vbytes _) => "bytes"
  | some (.vlist _) => "list"
  | some (.vrec n _) => n ++ "Instance"

/-- `self.type.__name__` for each built-in `Field` subclass (`String.type =
str`, `Integer.type = int`, ..., and `type(<Name> + 'Instance', ...)` for
record fields). -/
def pyTypeName : FieldTy → String
  | .boolean => "bool"
  | .integer _ => "int"
  | .str _ => "str"
  | .bytes => "bytes"
  | .list _ => "list"
  | .record n _ => n ++ "Instance"

/-- Python `len(value)`, `none` when the value has no length (`TypeError`). -/
def pyLen : Value → Option Nat
  | .vstr s => some s.length
  | .vbytes bs => some bs.length
  | .vlist es => some es.length
  | _ => none

/-- Python iteration (`for instance in instances`): lists yield their
elements, strings yield one-character strings, bytes yield ints; everything
else here raises `TypeError`. -/
def iterElems : Value → Option (List (Option Value))
  | .vlist es => some es
  | .vstr s => some (s.map (fun c => some (.vstr [c])))
  | .vbytes bs => some (bs.map (fun b => some (.vint (b : Int))))
  | _ => none

/-- The `except ValidationError` handler of `List.check` / `List.check_type`
(lines 384-389, 391-397): prepend `"inner element "` to a validation
error's message; other exceptions pass through. -/
def wrapInner (e : Except Err Unit) : Except Err Unit :=
  match e with
  | .error (.validation m) => .error (.validation ("inner element " ++ m))
  | e => e

/-- The element loop of `List.check` / `List.check_type`: run the given
per-element check, wrapping validation failures, stopping at the first
error. -/
def listCheckLoop (ec : Option Value → Except Err Unit) : List (Option Value) → Except Err Unit
  | [] => .ok ()
  | e :: es =>
    match wrapInner (ec e) with
    | .ok _ => listCheckLoop ec es
    | .error err => .error err

/-- `field.check(value)` dispatch: `String.check` tests `max_length`
(lines 345-347), `List.check` checks each element with the inner field
(lines 391-397), every other built-in inherits the no-op `Field.check`. -/
def checkF : Nat → FieldSpec → Option Value → Except Err Unit
  | 0, _, _ => .error (.other "fuel exhausted")
  | fuel + 1, f, v =>
    match f.ty with
    | .str ml =>
      match ml with
      | none => .ok ()
      | some m =>
        match v with
        | some w =>
          match pyLen w with
          | some L => if m < L then .error (.validation "too long") else .ok ()
          | none => .error (.other "TypeError")
        | none => .error (.other "TypeError")
    | .list inner =>
      match v with
      | some w =>
        match iterElems w with
        | some es => listCheckLoop (fun e => checkF fuel inner e) es
        | none => .error (.other "TypeError")
      | none => .error (.other "TypeError")
    | _ => .ok ()

/-- `field.check_type(value)` dispatch: `List.check_type` requires the exact
class `list` and then checks each element against the inner field
(lines 380-389; note the missing space in its message); every other field
compares class names (lines 271-275). -/
def check_typeF : Nat → FieldSpec → Option Value → Except Err Unit
  | 0, _, _ => .error (.other "fuel exhausted")
  | fuel + 1, f, v =>
    match f.ty with
    | .list inner =>
      match v with
      | some (.vlist es) => listCheckLoop (fun e => check_typeF fuel inner e) es
      | _ => .error (.validation ("is of type" ++ pyClassName v ++ ", expected list"))
    | ty =>
      if pyClassName v = pyTypeName ty then .ok ()
      else .error (.validation ("is of type " ++ pyClassName v ++ ", expected " ++
        pyTypeName ty))

/-- `Field.check_optional` (lines 267-269). -/
def check_optional (f : FieldSpec) (v : Option Value) : Except Err Unit :=
  if !f.optional && v.isNone then .error (.validation "cannot be None") else .ok ()

/-- One `FieldInstance.__setattr__` call for a schema field (lines 213-233):
substitute the default for `None`, then run `check_optional` (if still
`None`) or `check` followed by `check_type`, prepending the key to any
validation error; returns the stored value. -/
def setattrStep (fuel : Nat) (key : String) (f : FieldSpec) (v0 : Option Value) :
    Except Err (Option Value) :=
  let v : Option Value :=
    match v0 with
    | none => f.default
    | some x => some x
  match v with
  | none =>
    match check_optional f none with
    | .ok _ => .ok none
    | .error (.validation m) => .error (.validation (key ++ " " ++ m))
    | .error e => .error e
  | some x =>
    match checkF fuel f (some x) with
    | .error (.validation m) => .error (.validation (key ++ " " ++ m))
    | .error e => .error e
    | .ok _ =>
      match check_typeF fuel f (some x) with
      | .error (.validation m) => .error (.validation (key ++ " " ++ m))
      | .error e => .error e
      | .ok _ => .ok (some x)

/-- `FieldInstance.__init__` (lines 187-199): one validated `__setattr__`
per schema field, in order.  `kwargs` is positionally aligned with the
field list; a `none` entry covers both an absent key and an explicit
`None` value (both reach `__setattr__` with `None`, and for the
prefix-shaped kwarg dicts `deserialize` builds, the error order
coincides too). -/
def constructF (fuel : Nat) : List (String × FieldSpec) → List (Option Value) →
    Except Err (List (Option Value))
  | [], _ => .ok []
  | (k, f) :: fs, kwargs =>
    match setattrStep fuel k f (kwargs.headD none) with
    | .error e => .error e
    | .ok v =>
      match constructF fuel fs kwargs.tail with
      | .error e => .error e
      | .ok rest => .ok (v :: rest)

/-- `Integer.serialize` (lines 363-367): widen by one bit when a positive
signed value's bit length is an exact multiple of 8 (so the sign bit stays
clear), then `to_bytes` with at least one byte. -/
def Integer.serialize (signed : Bool) (i : Int) : Except Err (List Nat) :=
  let bits := int_bit_length i
  let bits2 := if signed = true ∧ 0 < i ∧ bits % 8 = 0 then bits + 1 else bits
  match int_to_bytes (max ((bits2 + 7) >>> 3) 1) i signed with
  | some bs => .ok bs
  | none => .error (.other "OverflowError")

/-- The per-value chunk emission of `Field.serialize` / `List.serialize`
(lines 299-307 / 409-416): `None` becomes the absence byte `0x00`,
anything else a length prefix followed by `ser`'s payload. -/
def encodeChunk (ser : Value → Except Err (List Nat)) (e : Option Value) :
    Except Err (List Nat) :=
  match e with
  | none => Except.ok [0]
  | some w =>
    match ser w with
    | .error err => Except.error err
    | .ok d =>
      match encode_length d.length with
      | .error err => Except.error err
      | .ok el => Except.ok (el ++ d)

/-- `field.serialize(value)` for every built-in plugin and for records
(`Field.serialize`, lines 289-308): records iterate their fields in order,
emitting `0x00` for `None` and a length-framed payload otherwise (a record
shorter than its schema would be an `AttributeError` from `getattr`;
Python raises it at the first missing attribute, we check the arity up
front — no claim distinguishes the two orders). -/
def serializeVF : Nat → FieldSpec → Value → Except Err (List Nat)
  | 0, _, _ => .error (.other "fuel exhausted")
  | fuel + 1, f, v =>
    match f.ty, v with
    | .boolean, .vbool b => .ok (if b then [1] else [0])
    | .integer sgn, .vint i => Integer.serialize sgn i
    | .str _, .vstr s =>
      if s.all validScalar then .ok (1 :: utf8Encode s)
      else .error (.other "UnicodeEncodeError")
    | .bytes, .vbytes bs => .ok (1 :: bs)
    | .list inner, .vlist es =>
      match es.mapM (encodeChunk (serializeVF fuel inner)) with
      | .error err => .error err
      | .ok chunks => .ok (1 :: chunks.flatten)
    | .record _ rfs, .vrec _ vals =>
      if (FieldList.toList rfs).length ≤ vals.length then
        match ((FieldList.toList rfs).zip vals).mapM
            (fun pa => encodeChunk (serializeVF fuel pa.1.2) pa.2) with
        | .error err => .error err
        | .ok chunks => .ok (1 :: chunks.flatten)
      else .error (.other "AttributeError")
    | _, _ => .error (.other "TypeError")

/-- The bound `make` built in `Field.__init__` (lines 242-251): construct
the instance, then run the field's own `check`, `check_optional` and
`check_type` on it. -/
def makeF (fuel : Nat) (f : FieldSpec) (name : String) (rfs : FieldList)
    (kwargs : List (Option Value)) : Except Err Value :=
  match constructF fuel (FieldList.toList rfs) kwargs with
  | .error e => .error e
  | .ok vals =>
    match checkF (fuel + 1) f (some (.vrec name vals)) with
    | .error e => .error e
    | .ok _ =>
      match check_optional f (some (.vrec name vals)) with
      | .error e => .error e
      | .ok _ =>
        match check_typeF (fuel + 1) f (some (.vrec name vals)) with
        | .error e => .error e
        | .ok _ => .ok (.vrec name vals)

/-- The kwargs entry `Field.deserialize` builds for one chunk
(lines 327-331): an empty chunk means `None`, anything else is decoded. -/
def decodeKwarg (des : List Nat → Except Err Value) (c : List Nat) :
    Except Err (Option Value) :=
  if c = [] then Except.ok none
  else
    match des c with
    | .error e => Except.error e
    | .ok w => Except.ok (some w)

/-- `field.deserialize(data)` for every built-in plugin and for records
(`Field.deserialize`, lines 310-332): records skip the marker byte, split
the rest into chunks, pair chunks with fields by position (`zip`
truncates), decode non-empty chunks, and hand the kwargs to `make`.
`List.deserialize` (lines 419-435) decodes **every** chunk through the
inner field, even empty ones. -/
def deserializeVF : Nat → FieldSpec → List Nat → Except Err Value
  | 0, _, _ => .error (.other "fuel exhausted")
  | fuel + 1, f, data =>
    match f.ty with
    | .boolean => .ok (.vbool (decide (data = [1])))
    | .integer sgn =>
      .ok (.vint (if sgn then from_bytes_signed data else (from_bytes_be data : Int)))
    | .str _ =>
      match utf8Decode (data.drop 1) with
      | some s => .ok (.vstr s)
      | none => .error (.other "UnicodeDecodeError")
    | .bytes => .ok (.vbytes (data.drop 1))
    | .list inner =>
      match (parseChunks data).mapM (fun c => deserializeVF fuel inner c) with
      | .error e => .error e
      | .ok vs => .ok (.vlist (vs.map some))
    | .record name rfs =>
      match ((FieldList.toList rfs).zip (parseChunks data)).mapM
          (fun pc => decodeKwarg (deserializeVF fuel pc.1.2) pc.2) with
      | .error e => .error e
      | .ok kwargs => makeF fuel f name rfs kwargs

/-- `FieldInstance.__eq__` (lines 204-211) together with Python `==` on the
built-in field values: class names must agree and every schema field must
compare equal (`True == 1` holds in Python; `None` only equals `None`). -/
def pyEqF : Nat → Value → Value → Bool
  | 0, _, _ => false
  | fuel + 1, a, b =>
    match a, b with
    | .vbool x, .vbool y => x == y
    | .vbool x, .vint y => (if x then (1 : Int) else 0) == y
    | .vint x, .vbool y => x == (if y then (1 : Int) else 0)
    | .vint x, .vint y => x == y
    | .vstr x, .vstr y => x == y
    | .vbytes x, .vbytes y => x == y
    | .vlist xs, .vlist ys =>
      xs.length == ys.length &&
      (xs.zip ys).all (fun pq =>
        match pq with
        | (none, none) => true
        | (some x, some y) => pyEqF fuel x y
        | _ => false)
    | .vrec n xs, .vrec n' ys =>
      n == n' && xs.length == ys.length &&
      (xs.zip ys).all (fun pq =>
        match pq with
        | (none, none) => true
        | (some x, some y) => pyEqF fuel x y
        | _ => false)
    | _, _ => false

def isOkE : Except Err Unit → Bool
  | .ok _ => true
  | .error _ => false

/-- A field value as the validation pipeline leaves it: an absent value
requires `optional` and no default (a default would have replaced it);
a present value passes `check` and `check_type`, and — as every value
stored in a record was itself produced by a validating constructor —
list elements and nested records are recursively in the same state. -/
def validOptF : Nat → FieldSpec → Option Value → Bool
  | 0, _, _ => false
  | fuel + 1, f, v =>
    match v with
    | none => f.optional && f.default.isNone
    | some w =>
      isOkE (checkF (fuel + 1) f (some w)) && isOkE (check_typeF (fuel + 1) f (some w)) &&
      (match f.ty, w with
       | .list inner, .vlist es =>
         es.all (fun e =>
           match e with
           | some x => validOptF fuel inner (some x)
           | none => false)
       | .record _ rfs, .vrec _ vals =>
         (FieldList.toList rfs).length == vals.length &&
         ((FieldList.toList rfs).zip vals).all (fun pa => validOptF fuel pa.1.2 pa.2)
       | _, _ => true)

/-! ### Fuel-instantiating wrappers (`FieldSpec.size` always suffices) -/
def serializeValue (f : FieldSpec) (v : Value) : Except Err (List Nat) :=
  serializeVF f.size f v

def deserializeValue (f : FieldSpec) (data : List Nat) : Except Err Value :=
  deserializeVF f.size f data

def validOpt (f : FieldSpec) (v : Option Value) : Bool := validOptF f.size f v

/-- The record `Field` object that the classmethod `make` builds with
`cls()`: default options (`optional = None`, `default = None`). -/
def recSpec (name : String) (fs : FieldList) : FieldSpec :=
  FieldSpec.mk false none (FieldTy.record name fs)

/-- `Cls.make(**kwargs)` for a record class — the behaviour of the pipeline
the source defines below the unconditional `raise` in `Field.__init__`. -/
def make (name : String) (fs : FieldList) (kwargs : List (Option Value)) :
    Except Err Value :=
  makeF (recSpec name fs).size (recSpec name fs) name fs kwargs

/-! ## The dead constructor (`Field.__init__` raises unconditionally) -/
/-- `Field.__init__` (lines 169-177): writes a deprecation notice and
raises `Exception("Upgrade Encodium")` before touching any attribute.
`String`, `Integer`, `Boolean` and `Bytes` inherit this `__init__`
unchanged. -/
def Field.init : Except Err Unit := .error (.other "Upgrade Encodium")

/-- `List.__init__` (lines 376-378): assigns `self.inner_field` first, then
delegates to `Field.__init__`, which raises.  The result pairs the
attribute state at the moment of the raise with the outcome. -/
def ListField.init (inner : FieldSpec) : Option FieldSpec × Except Err Unit :=
  (some inner, Field.init)

/-- The classmethod `Field.make` (lines 334-336): `cls().make(...)` — the
`cls()` call raises, so the instance-level `make` is never reached. -/
def Field.make_classmethod : Except Err Unit :=
  match Field.init with
  | .error e => .error e
  | .ok _ => .ok ()

/-- A wire chunk for a given payload: the absence byte for an empty
payload, otherwise the length prefix followed by the payload (junk when
the length is not encodable; the theorems below always bound it). -/
def wireChunk (item : List Nat) : List Nat :=
  if item = [] then [0]
  else
    (match encode_length item.length with
      | .ok e => e
      | .error _ => []) ++ item

/-- A record wire image built from a list of chunk payloads: format marker
then one chunk per payload ([] meaning an absent chunk). -/
def mkWire (items : List (List Nat)) : List Nat := 1 :: (items.map wireChunk).flatten

/-! ## Example schemas for concrete instances -/
/-- A non-optional signed `Integer` field. -/
def intField : FieldSpec := FieldSpec.mk false none (FieldTy.integer true)

/-- `class R(Field): x = Integer.make(signed=True)`. -/
def exRecR : FieldSpec := recSpec "R" (FieldList.cons "x" intField FieldList.nil)

/-- `class B(Field): b = Bytes.make(optional=True)`. -/
def exRecB : FieldSpec :=
  recSpec "B" (FieldList.cons "b" (FieldSpec.mk true none FieldTy.bytes) FieldList.nil)

/-- `class S(Field): s = String.make(optional=True)`. -/
def exRecS : FieldSpec :=
  recSpec "S" (FieldList.cons "s" (FieldSpec.mk true none (FieldTy.str none)) FieldList.nil)

/-! ## Theorems -/

/-! ### Lemmas about the integer primitives -/
theorem bitLenF_eq_log2 : ∀ f n, n ≤ f → bitLenF f n = if n = 0 then 0 else Nat.log2 n + 1 := by
  intro f
  induction f with
  | zero => intro n h; interval_cases n; rfl
  | succ g ih =>
    intro n h
    by_cases h0 : n = 0
    · simp [bitLenF, h0]
    · have hdiv : n / 2 ≤ g := by omega
      rw [bitLenF, if_neg h0, ih _ hdiv]
      by_cases h1 : n / 2 = 0
      · have : n = 1 := by omega
        subst this
        simp [Nat.log2]
      · have h2 : 2 ≤ n := by omega
        rw [if_neg h1]
        conv_rhs => rw [Nat.log2]
        rw [if_pos h2, if_neg h0]

theorem bit_length_eq (n : Nat) : bit_length n = if n = 0 then 0 else Nat.log2 n + 1 :=
  bitLenF_eq_log2 n n le_rfl

theorem bit_length_zero : bit_length 0 = 0 := rfl

theorem lt_two_pow_bit_length (n : Nat) : n < 2 ^ bit_length n := by
  rw [bit_length_eq]
  by_cases h : n = 0
  · simp [h]
  · rw [if_neg h]
    exact (Nat.log2_lt h).mp (Nat.lt_succ_self _)

theorem two_pow_bit_length_pred_le (n : Nat) (h : n ≠ 0) :
    2 ^ (bit_length n - 1) ≤ n := by
  rw [bit_length_eq, if_neg h]
  simpa using Nat.log2_self_le h

theorem to_bytes_be_length (k n : Nat) : (to_bytes_be k n).length = k := by
  induction k generalizing n with
  | zero => rfl
  | succ j ih => simp [to_bytes_be, ih]

theorem from_bytes_be_append_one (xs : List Nat) (b : Nat) :
    from_bytes_be (xs ++ [b]) = 256 * from_bytes_be xs + b := by
  simp [from_bytes_be, List.foldl_append, Nat.mul_comm]

theorem from_bytes_be_to_bytes_be (k n : Nat) :
    from_bytes_be (to_bytes_be k n) = n % 256 ^ k := by
  induction k generalizing n with
  | zero => simp [to_bytes_be, from_bytes_be, Nat.mod_one]
  | succ j ih =>
    rw [to_bytes_be, from_bytes_be_append_one, ih, Nat.pow_succ,
      Nat.mul_comm (256 ^ j) 256, Nat.mod_mul]
    omega

theorem from_bytes_be_to_bytes_be_of_lt {k n : Nat} (h : n < 256 ^ k) :
    from_bytes_be (to_bytes_be k n) = n := by
  rw [from_bytes_be_to_bytes_be, Nat.mod_eq_of_lt h]

/-- The byte width Python computes from `bit_length` is wide enough:
`n < 256 ^ ((n.bit_length() + 7) >> 3)`. -/
theorem lt_pow_byte_width (n : Nat) : n < 256 ^ ((bit_length n + 7) >>> 3) := by
  have hshift : (bit_length n + 7) >>> 3 = (bit_length n + 7) / 8 := by
    simp [Nat.shiftRight_eq_div_pow]
  rw [hshift]
  have h1 : n < 2 ^ bit_length n := lt_two_pow_bit_length n
  have h2 : bit_length n ≤ 8 * ((bit_length n + 7) / 8) := by omega
  calc n < 2 ^ bit_length n := h1
    _ ≤ 2 ^ (8 * ((bit_length n + 7) / 8)) := Nat.pow_le_pow_right (by norm_num) h2
    _ = 256 ^ ((bit_length n + 7) / 8) := by rw [Nat.pow_mul]

/-- That byte width is also minimal: for `n ≠ 0`, one byte fewer than
`(n.bit_length() + 7) >> 3` cannot hold `n`. -/
theorem pow_byte_width_pred_le (n : Nat) (h : n ≠ 0) :
    256 ^ ((bit_length n + 7) >>> 3 - 1) ≤ n := by
  have hshift : (bit_length n + 7) >>> 3 = (bit_length n + 7) / 8 := by
    simp [Nat.shiftRight_eq_div_pow]
  rw [hshift]
  have h1 : 2 ^ (bit_length n - 1) ≤ n := two_pow_bit_length_pred_le n h
  have hbl : bit_length n ≠ 0 := by
    intro h0
    have := two_pow_bit_length_pred_le n h
    rw [h0] at this
    have hlt := lt_two_pow_bit_length n
    rw [h0] at hlt
    omega
  have h2 : 8 * ((bit_length n + 7) / 8 - 1) ≤ bit_length n - 1 := by omega
  calc 256 ^ ((bit_length n + 7) / 8 - 1) = 2 ^ (8 * ((bit_length n + 7) / 8 - 1)) := by
        rw [Nat.pow_mul]
    _ ≤ 2 ^ (bit_length n - 1) := Nat.pow_le_pow_right (by norm_num) h2
    _ ≤ n := h1

theorem int_to_bytes_length {k : Nat} {i : Int} {signed : Bool} {bs : List Nat}
    (h : int_to_bytes k i signed = some bs) : bs.length = k := by
  unfold int_to_bytes at h
  split at h
  · split at h
    · simp only [Option.some.injEq] at h
      rw [← h, to_bytes_be_length]
    · exact absurd h (by simp)
  · split at h
    · simp only [Option.some.injEq] at h
      rw [← h, to_bytes_be_length]
    · exact absurd h (by simp)

/-- Unsigned round trip: whatever `to_bytes` produced, `from_bytes` reads
back. -/
theorem from_bytes_be_int_to_bytes {k : Nat} {i : Int} {bs : List Nat}
    (h : int_to_bytes k i false = some bs) : (from_bytes_be bs : Int) = i := by
  unfold int_to_bytes at h
  simp only [Bool.false_eq_true, if_false] at h
  split at h
  · rename_i hr
    obtain ⟨h0, hlt⟩ := hr
    have hbs : bs = to_bytes_be k i.toNat := by
      simpa using h.symm
    subst hbs
    have hnat : i.toNat < 256 ^ k := by
      have : (i.toNat : Int) < (256 : Int) ^ k := by
        rwa [Int.toNat_of_nonneg h0]
      exact_mod_cast this
    rw [from_bytes_be_to_bytes_be_of_lt hnat, Int.toNat_of_nonneg h0]
  · exact absurd h (by simp)

theorem from_bytes_signed_eq (bs : List Nat) :
    from_bytes_signed bs =
      if 256 ^ bs.length ≤ 2 * from_bytes_be bs then
        (from_bytes_be bs : Int) - ((256 ^ bs.length : Nat) : Int)
      else (from_bytes_be bs : Int) := rfl

/-- Signed round trip: a successful signed `to_bytes` is inverted by
`from_bytes(..., signed=True)`. -/
theorem from_bytes_signed_int_to_bytes {k : Nat} {i : Int} {bs : List Nat}
    (h : int_to_bytes k i true = some bs) : from_bytes_signed bs = i := by
  unfold int_to_bytes at h
  simp only [if_true] at h
  split at h
  · rename_i hr
    obtain ⟨hlo, hhi⟩ := hr
    have hbs : bs = to_bytes_be k (i % ((256 : Int) ^ k)).toNat := by
      simpa using h.symm
    have hpos : (0 : Int) < (256 : Int) ^ k := by positivity
    have hmod_lt : i % ((256 : Int) ^ k) < (256 : Int) ^ k := Int.emod_lt_of_pos i hpos
    have hmod_nonneg : (0 : Int) ≤ i % ((256 : Int) ^ k) := Int.emod_nonneg i (by positivity)
    have hnat_lt : (i % ((256 : Int) ^ k)).toNat < 256 ^ k := by
      have : ((i % ((256 : Int) ^ k)).toNat : Int) < (256 : Int) ^ k := by
        rwa [Int.toNat_of_nonneg hmod_nonneg]
      exact_mod_cast this
    have hlen : bs.length = k := by rw [hbs, to_bytes_be_length]
    have hub : from_bytes_be bs = (i % ((256 : Int) ^ k)).toNat := by
      rw [hbs, from_bytes_be_to_bytes_be_of_lt hnat_lt]
    rcases le_or_lt 0 i with hi0 | hi0
    · -- nonnegative: `i % 256^k = i`, top bit clear
      have hik : i < (256 : Int) ^ k := by omega
      have hmod : i % ((256 : Int) ^ k) = i := Int.emod_eq_of_lt hi0 hik
      have hu : (from_bytes_be bs : Int) = i := by
        rw [hub, hmod, Int.toNat_of_nonneg hi0]
      have hult : 2 * from_bytes_be bs < 256 ^ k := by
        have h2 : 2 * (from_bytes_be bs : Int) < (256 : Int) ^ k := by rw [hu]; omega
        exact_mod_cast h2
      rw [from_bytes_signed_eq, hlen, if_neg (by omega), hu]
    · -- negative: `i % 256^k = i + 256^k`, top bit set
      have hmod : i % ((256 : Int) ^ k) = i + (256 : Int) ^ k := by
        have hge : (0 : Int) ≤ i + (256 : Int) ^ k := by omega
        have hstep : (i + (256 : Int) ^ k * 1) % ((256 : Int) ^ k) = i % ((256 : Int) ^ k) :=
          Int.add_mul_emod_self_left i ((256 : Int) ^ k) 1
        calc i % ((256 : Int) ^ k)
            = (i + (256 : Int) ^ k) % ((256 : Int) ^ k) := by
              rw [← hstep]; ring_nf
          _ = i + (256 : Int) ^ k := Int.emod_eq_of_lt hge (by omega)
      have hu : (from_bytes_be bs : Int) = i + (256 : Int) ^ k := by
        rw [hub, hmod, Int.toNat_of_nonneg (by omega)]
      have hule : 256 ^ k ≤ 2 * from_bytes_be bs := by
        have h2 : (256 : Int) ^ k ≤ 2 * (from_bytes_be bs : Int) := by rw [hu]; omega
        exact_mod_cast h2
      rw [from_bytes_signed_eq, hlen, if_pos (by omega), hu]
      push_cast
      ring
  · exact absurd h (by simp)

/-! ### Lemmas about the length codec -/
theorem bit_length_le_iff (n w : Nat) : bit_length n ≤ w ↔ n < 2 ^ w := by
  constructor
  · intro h
    exact lt_of_lt_of_le (lt_two_pow_bit_length n) (Nat.pow_le_pow_right (by norm_num) h)
  · intro h
    rw [bit_length_eq]
    by_cases h0 : n = 0
    · simp [h0]
    · rw [if_neg h0]
      have := (Nat.log2_lt h0).mpr h
      omega

theorem byte_width_one {n : Nat} (h1 : 1 ≤ n) (h2 : n ≤ 0xf9) :
    (bit_length n + 7) >>> 3 = 1 := by
  have hle : bit_length n ≤ 8 := (bit_length_le_iff n 8).mpr (by omega)
  have hge : 1 ≤ bit_length n := by
    by_contra hlt
    have : bit_length n ≤ 0 := by omega
    have := (bit_length_le_iff n 0).mp this
    omega
  have hshift : (bit_length n + 7) >>> 3 = (bit_length n + 7) / 8 := by
    simp [Nat.shiftRight_eq_div_pow]
  omega

theorem to_bytes_be_one {n : Nat} (h : n < 256) : to_bytes_be 1 n = [n] := by
  simp [to_bytes_be, Nat.mod_eq_of_lt h]

/-- Small lengths (`1 ≤ n ≤ 0xf9`) encode as the single byte `[n]`. -/
theorem encode_length_small {n : Nat} (h1 : 1 ≤ n) (h2 : n ≤ 0xf9) :
    encode_length n = Except.ok [n] := by
  unfold encode_length
  rw [if_neg (by omega)]
  rw [byte_width_one h1 h2, to_bytes_be_one (by omega)]

/-- The zero length encodes as **zero** bytes: `(0).to_bytes(0, 'big') = b''`. -/
theorem encode_length_zero : encode_length 0 = Except.ok [] := rfl

/-- Large lengths (`0xfa ≤ n < 2^48`) encode as a tag byte `0xf9 + k`
followed by the `k` minimal big-endian bytes of `n`. -/
theorem encode_length_large {n : Nat} (h1 : 0xfa ≤ n) (h2 : n < 2 ^ 48) :
    encode_length n =
      Except.ok (((bit_length n + 7) >>> 3 + 0xf9) ::
        to_bytes_be ((bit_length n + 7) >>> 3) n) := by
  have hk6 : (bit_length n + 7) >>> 3 ≤ 6 := by
    by_contra hgt
    have hmin : 256 ^ ((bit_length n + 7) >>> 3 - 1) ≤ n :=
      pow_byte_width_pred_le n (by omega)
    have h6 : 6 ≤ (bit_length n + 7) >>> 3 - 1 := by omega
    have : (256 : Nat) ^ 6 ≤ 256 ^ ((bit_length n + 7) >>> 3 - 1) :=
      Nat.pow_le_pow_right (by norm_num) h6
    have hval : (256 : Nat) ^ 6 = 2 ^ 48 := by norm_num
    omega
  unfold encode_length
  rw [if_pos h1, to_bytes_be_length, if_neg (by omega)]

/-- Length encoding fails exactly at `2^48`: above it the minimal byte
width exceeds 6. -/
theorem encode_length_too_big {n : Nat} (h : 2 ^ 48 ≤ n) :
    encode_length n = Except.error (Err.validation "length too big") := by
  have hk : 6 < (bit_length n + 7) >>> 3 := by
    by_contra hle
    have : n < 256 ^ ((bit_length n + 7) >>> 3) := lt_pow_byte_width n
    have h2 : (256 : Nat) ^ ((bit_length n + 7) >>> 3) ≤ 256 ^ 6 :=
      Nat.pow_le_pow_right (by norm_num) (by omega)
    have hval : (256 : Nat) ^ 6 = 2 ^ 48 := by norm_num
    omega
  unfold encode_length
  rw [if_pos (by omega : 0xfa ≤ n), to_bytes_be_length, if_pos hk]

/-- A successful encoding means the length was below `2^48`. -/
theorem encode_length_ok_lt {n : Nat} {e : List Nat} (h : encode_length n = Except.ok e) :
    n < 2 ^ 48 := by
  by_contra hge
  rw [encode_length_too_big (by omega)] at h
  exact absurd h (by simp)

/-! ### Parsing a well-formed chunk stream -/
theorem pyslice_shift : ∀ (pre d : List Nat) (a b : Nat),
    pyslice (pre ++ d) (pre.length + a) (pre.length + b) = pyslice d a b := by
  intro pre
  induction pre with
  | nil => intro d a b; simp [pyslice]
  | cons x xs ih =>
    intro d a b
    have e1 : (x :: xs).length + b = (xs.length + b) + 1 := by simp; omega
    have e2 : (x :: xs).length + a = (xs.length + a) + 1 := by simp; omega
    rw [e1, e2, List.cons_append]
    unfold pyslice
    rw [List.take_succ_cons, List.drop_succ_cons]
    exact ih d a b

theorem pyslice_prefix (it d : List Nat) : pyslice (it ++ d) 0 it.length = it := by
  unfold pyslice
  rw [List.drop_zero, List.take_left]

theorem pyslice_head (b : Nat) (rest : List Nat) : pyslice (b :: rest) 0 1 = [b] := by
  simp [pyslice]

theorem from_bytes_be_singleton (b : Nat) : from_bytes_be [b] = b := by
  simp [from_bytes_be]

theorem decode_length_shift (pre d : List Nat) (j : Nat) :
    decode_length (pre ++ d) (pre.length + j) = decode_length d j := by
  unfold decode_length
  have h1 : pyslice (pre ++ d) (pre.length + j) (pre.length + j + 1) = pyslice d j (j + 1) := by
    have h := pyslice_shift pre d j (j + 1)
    rwa [show pre.length + (j + 1) = pre.length + j + 1 by omega] at h
  rw [h1]
  by_cases hc : 0xfa ≤ from_bytes_be (pyslice d j (j + 1))
  · rw [if_pos hc, if_pos hc]
    have h2 := pyslice_shift pre d (j + 1)
      (j + 1 + (from_bytes_be (pyslice d j (j + 1)) - 0xf9))
    rw [show pre.length + (j + 1) = pre.length + j + 1 by omega,
      show pre.length + (j + 1 + (from_bytes_be (pyslice d j (j + 1)) - 0xf9)) =
        pre.length + j + 1 + (from_bytes_be (pyslice d j (j + 1)) - 0xf9) by omega] at h2
    rw [h2]
  · rw [if_neg hc, if_neg hc]

theorem decode_length_snd_pos (data : List Nat) (i : Nat) :
    1 ≤ (decode_length data i).2 := by
  unfold decode_length
  by_cases hc : 0xfa ≤ from_bytes_be (pyslice data i (i + 1))
  · simp [hc]
  · simp [hc]

theorem parseChunksF_shift : ∀ (fuel : Nat) (pre d : List Nat) (j : Nat),
    parseChunksF fuel (pre ++ d) (pre.length + j) = parseChunksF fuel d j := by
  intro fuel
  induction fuel with
  | zero => intro pre d j; rfl
  | succ f ih =>
    intro pre d j
    unfold parseChunksF
    have hlen : (pre ++ d).length = pre.length + d.length := by simp
    by_cases hc : j < d.length
    · rw [if_pos (by omega), if_pos hc, decode_length_shift]
      dsimp only
      set p := decode_length d j with hp
      have hsl := pyslice_shift pre d (j + p.2) (j + p.2 + p.1)
      rw [show pre.length + (j + p.2) = pre.length + j + p.2 by omega,
        show pre.length + (j + p.2 + p.1) = pre.length + j + p.2 + p.1 by omega] at hsl
      rw [hsl]
      have hrec := ih pre d (j + p.2 + p.1)
      rw [show pre.length + (j + p.2 + p.1) = pre.length + j + p.2 + p.1 by omega] at hrec
      rw [hrec]
    · rw [if_neg (by omega), if_neg hc]

theorem decode_encode {n : Nat} {e : List Nat} (h1 : 1 ≤ n)
    (h : encode_length n = Except.ok e) (tail : List Nat) :
    decode_length (e ++ tail) 0 = (n, e.length) := by
  rcases le_or_lt n 0xf9 with hsm | hlg
  · rw [encode_length_small h1 hsm] at h
    have he : e = [n] := by simpa using h.symm
    subst he
    unfold decode_length
    rw [show ([n] ++ tail : List Nat) = n :: tail from rfl]
    rw [show (0 : Nat) + 1 = 1 from rfl, pyslice_head, from_bytes_be_singleton,
      if_neg (by omega)]
    simp
  · have h48 := encode_length_ok_lt h
    rw [encode_length_large (by omega) h48] at h
    set K := (bit_length n + 7) >>> 3 with hK
    have he : e = (K + 0xf9) :: to_bytes_be K n := by simpa using h.symm
    subst he
    have hKpos : 1 ≤ K := by
      by_contra hc
      have hK0 : K = 0 := by omega
      have := lt_pow_byte_width n
      rw [← hK, hK0] at this
      omega
    unfold decode_length
    rw [show (((K + 0xf9) :: to_bytes_be K n) ++ tail : List Nat) =
      (K + 0xf9) :: (to_bytes_be K n ++ tail) by simp]
    rw [show (0 : Nat) + 1 = 1 from rfl, pyslice_head, from_bytes_be_singleton,
      if_pos (by omega)]
    have hsub : K + 0xf9 - 0xf9 = K := by omega
    rw [hsub]
    have hsl : pyslice ((K + 0xf9) :: (to_bytes_be K n ++ tail)) 1 (1 + K) =
        to_bytes_be K n := by
      have h0 := pyslice_shift [K + 0xf9] (to_bytes_be K n ++ tail) 0 K
      simp only [List.length_cons, List.length_nil, List.singleton_append] at h0
      rw [show (1 : Nat) + 0 = 1 by omega] at h0
      rw [h0]
      have := pyslice_prefix (to_bytes_be K n) tail
      rwa [to_bytes_be_length] at this
    rw [hsl, from_bytes_be_to_bytes_be_of_lt (by rw [hK]; exact lt_pow_byte_width n)]
    simp [to_bytes_be_length]
    omega

theorem parse_stream : ∀ (ps : List (List Nat × List Nat)) (fuel : Nat),
    (∀ p ∈ ps, GoodChunk p.1 p.2) → (joinWires ps).length ≤ fuel →
    parseChunksF fuel (joinWires ps) 0 = ps.map Prod.snd := by
  intro ps
  induction ps with
  | nil =>
    intro fuel _ _
    cases fuel <;> simp [joinWires, parseChunksF]
  | cons p ps ih =>
    intro fuel hgood hfuel
    obtain ⟨w, it⟩ := p
    have hw : GoodChunk w it := hgood (w, it) (by simp)
    have hrest : ∀ q ∈ ps, GoodChunk q.1 q.2 := fun q hq => hgood q (by simp [hq])
    have hjoin : joinWires ((w, it) :: ps) = w ++ joinWires ps := by
      simp [joinWires]
    rcases hw with ⟨hit, hwv⟩ | ⟨hit, e, henc, hwv⟩
    · -- absent chunk: wire byte 0x00, empty payload
      subst hwv hit
      rw [hjoin] at hfuel ⊢
      have hlen : ([0] ++ joinWires ps).length = 1 + (joinWires ps).length := by
        simp [Nat.add_comm]
      obtain ⟨f, rfl⟩ : ∃ f, fuel = f + 1 := ⟨fuel - 1, by omega⟩
      unfold parseChunksF
      rw [if_pos (by rw [hlen]; omega)]
      have hdec : decode_length ([0] ++ joinWires ps) 0 = (0, 1) := by
        unfold decode_length
        rw [show ([0] ++ joinWires ps : List Nat) = 0 :: joinWires ps from rfl]
        rw [show (0 : Nat) + 1 = 1 from rfl, pyslice_head, from_bytes_be_singleton,
          if_neg (by omega)]
      rw [hdec]
      dsimp only
      have hsl : pyslice ([0] ++ joinWires ps) (0 + 1) (0 + 1 + 0) = [] := by
        simp [pyslice]
      rw [hsl]
      have hsh : parseChunksF f ([0] ++ joinWires ps) (0 + 1 + 0) =
          parseChunksF f (joinWires ps) 0 := by
        have h0 := parseChunksF_shift f [0] (joinWires ps) 0
        simpa using h0
      rw [hsh, ih f hrest (by omega)]
      simp
    · -- present chunk: encoded length followed by the payload
      subst hwv
      rw [hjoin] at hfuel ⊢
      have hn : 1 ≤ it.length := by
        cases it with
        | nil => exact absurd rfl hit
        | cons a l => simp
      have hassoc : (e ++ it) ++ joinWires ps = e ++ (it ++ joinWires ps) := by simp
      have hwlen : (e ++ it ++ joinWires ps).length =
          e.length + it.length + (joinWires ps).length := by
        simp [Nat.add_assoc]
      obtain ⟨f, rfl⟩ : ∃ f, fuel = f + 1 := ⟨fuel - 1, by omega⟩
      unfold parseChunksF
      rw [if_pos (by rw [hwlen]; omega)]
      rw [hassoc]
      rw [decode_encode hn henc (it ++ joinWires ps)]
      dsimp only
      have hsl : pyslice (e ++ (it ++ joinWires ps)) (0 + e.length)
          (0 + e.length + it.length) = it := by
        have h0 := pyslice_shift e (it ++ joinWires ps) 0 it.length
        rw [show e.length + 0 = 0 + e.length by omega,
          show e.length + it.length = 0 + e.length + it.length by omega] at h0
        rw [h0]
        exact pyslice_prefix it (joinWires ps)
      rw [hsl]
      have hidx : 0 + e.length + it.length = (e ++ it).length + 0 := by simp
      rw [hidx, ← hassoc, parseChunksF_shift f (e ++ it) (joinWires ps) 0]
      rw [ih f hrest (by rw [hwlen] at hfuel; omega)]
      simp

theorem utf8EncodeChar_ne_nil (c : Nat) : utf8EncodeChar c ≠ [] := by
  unfold utf8EncodeChar
  split
  · simp
  · split
    · simp
    · split <;> simp

theorem utf8Step_encode (c : Nat) (hv : validScalar c = true) (rest : List Nat) :
    utf8Step (utf8EncodeChar c ++ rest) = some (c, rest) := by
  have hv' : c < 0x110000 ∧ (c < 0xd800 ∨ 0xe000 ≤ c) := of_decide_eq_true hv
  obtain ⟨hv1, hv2⟩ := hv'
  unfold utf8EncodeChar
  by_cases h1 : c < 0x80
  · rw [if_pos h1]
    rw [show ([c] ++ rest : List Nat) = c :: rest from rfl]
    unfold utf8Step
    dsimp only
    rw [if_pos h1]
  · rw [if_neg h1]
    by_cases h2 : c < 0x800
    · rw [if_pos h2]
      rw [show ([0xc0 + c / 0x40, 0x80 + c % 0x40] ++ rest : List Nat) =
        (0xc0 + c / 0x40) :: (0x80 + c % 0x40) :: rest from rfl]
      unfold utf8Step
      dsimp only
      rw [if_neg (by omega), if_pos (by omega)]
      rw [if_pos (by refine ⟨by omega, by omega, by omega⟩)]
      have harith : (0xc0 + c / 0x40 - 0xc0) * 0x40 + (0x80 + c % 0x40 - 0x80) = c := by
        omega
      rw [harith]
    · rw [if_neg h2]
      by_cases h3 : c < 0x10000
      · rw [if_pos h3]
        rw [show ([0xe0 + c / 0x1000, 0x80 + c / 0x40 % 0x40, 0x80 + c % 0x40] ++ rest :
          List Nat) = (0xe0 + c / 0x1000) :: (0x80 + c / 0x40 % 0x40) ::
            (0x80 + c % 0x40) :: rest from rfl]
        unfold utf8Step
        dsimp only
        rw [if_neg (by omega), if_neg (by omega), if_pos (by omega)]
        rw [if_pos (by refine ⟨by omega, by omega, by omega, by omega⟩)]
        have harith : (0xe0 + c / 0x1000 - 0xe0) * 0x1000 +
            (0x80 + c / 0x40 % 0x40 - 0x80) * 0x40 + (0x80 + c % 0x40 - 0x80) = c := by
          omega
        rw [if_pos (by rw [harith]; exact ⟨by omega, hv2⟩)]
        rw [harith]
      · rw [if_neg h3]
        rw [show ([0xf0 + c / 0x40000, 0x80 + c / 0x1000 % 0x40, 0x80 + c / 0x40 % 0x40,
          0x80 + c % 0x40] ++ rest : List Nat) = (0xf0 + c / 0x40000) ::
            (0x80 + c / 0x1000 % 0x40) :: (0x80 + c / 0x40 % 0x40) ::
            (0x80 + c % 0x40) :: rest from rfl]
        unfold utf8Step
        dsimp only
        rw [if_neg (by omega), if_neg (by omega), if_neg (by omega)]
        have harith : (0xf0 + c / 0x40000 - 0xf0) * 0x40000 +
            (0x80 + c / 0x1000 % 0x40 - 0x80) * 0x1000 +
            (0x80 + c / 0x40 % 0x40 - 0x80) * 0x40 + (0x80 + c % 0x40 - 0x80) = c := by
          omega
        rw [if_pos (by refine ⟨by omega, by omega, by omega, by omega, by omega, by omega,
          by omega⟩)]
        rw [if_pos (by rw [harith]; exact ⟨by omega, hv1⟩)]
        rw [harith]

theorem utf8DecodeF_encode : ∀ (s : List Nat) (fuel : Nat),
    (utf8Encode s).length ≤ fuel → s.all validScalar = true →
    utf8DecodeF fuel (utf8Encode s) = some s := by
  intro s
  induction s with
  | nil =>
    intro fuel _ _
    cases fuel <;> simp [utf8Encode, utf8DecodeF]
  | cons c cs ih =>
    intro fuel hfuel hv
    rw [List.all_cons, Bool.and_eq_true] at hv
    obtain ⟨hc, hcs⟩ := hv
    have henc : utf8Encode (c :: cs) = utf8EncodeChar c ++ utf8Encode cs := by
      simp [utf8Encode]
    rw [henc] at hfuel ⊢
    have hne : utf8EncodeChar c ++ utf8Encode cs ≠ [] := by
      intro h0
      exact utf8EncodeChar_ne_nil c (List.append_eq_nil.mp h0).1
    have hlen1 : 1 ≤ (utf8EncodeChar c).length := by
      cases hec : utf8EncodeChar c with
      | nil => exact absurd hec (utf8EncodeChar_ne_nil c)
      | cons a l => simp
    have hlen : (utf8EncodeChar c ++ utf8Encode cs).length =
        (utf8EncodeChar c).length + (utf8Encode cs).length := by simp
    obtain ⟨f, rfl⟩ : ∃ f, fuel = f + 1 := ⟨fuel - 1, by omega⟩
    rw [utf8DecodeF, if_neg hne, utf8Step_encode c hc]
    dsimp only
    rw [ih f (by omega) hcs]
    rfl

/-- Decoding inverts encoding on any list of valid code points. -/
theorem utf8Decode_encode (s : List Nat) (hv : s.all validScalar = true) :
    utf8Decode (utf8Encode s) = some s :=
  utf8DecodeF_encode s (utf8Encode s).length le_rfl hv

/-! ## Helper lemmas for the round trip -/
theorem FieldSpec.size_pos_spec (f : FieldSpec) : 1 ≤ f.size := by
  cases f with
  | mk o d t => rw [FieldSpec.size]; omega

theorem FieldList.size_pos_list (fl : FieldList) : 1 ≤ fl.size := by
  cases fl with
  | nil => rw [FieldList.size]
  | cons k f rest => rw [FieldList.size]; omega

theorem FieldSpec.size_eq (f : FieldSpec) : f.size = f.ty.size + 1 := by
  cases f with
  | mk o d t => rw [FieldSpec.size, FieldSpec.ty]

theorem mem_toList_size_lt : ∀ (fl : FieldList) (k : String) (g : FieldSpec),
    (k, g) ∈ fl.toList → g.size < fl.size
  | .nil, k, g, h => by
    rw [FieldList.toList] at h
    simp at h
  | .cons k' f' rest, k, g, h => by
    rw [FieldList.toList] at h
    rcases List.mem_cons.mp h with heq | hmem
    · injection heq with h1 h2
      subst h2
      rw [FieldList.size]
      omega
    · have := mem_toList_size_lt rest k g hmem
      rw [FieldList.size]
      omega

theorem isOkE_eq_ok {e : Except Err Unit} (h : isOkE e = true) : e = .ok () := by
  cases e with
  | ok u => cases u; rfl
  | error _ => exact absurd h (by simp [isOkE])

/-- Every successful payload of a plugin serializer is non-empty (the
`NOTE` at lines 133-136 of the source: so it can be told apart from
`None`'s zero-length chunk). -/
theorem serializeVF_ok_pos : ∀ {fuel : Nat} {f : FieldSpec} {v : Value} {p : List Nat},
    serializeVF fuel f v = .ok p → 1 ≤ p.length := by
  intro fuel f v p h
  cases fuel with
  | zero => exact absurd h Except.noConfusion
  | succ m =>
    obtain ⟨o, d, t⟩ := f
    rw [serializeVF.eq_def] at h
    cases t <;> cases v <;> dsimp only [FieldSpec.ty] at h <;>
      try exact absurd h Except.noConfusion
    case boolean.vbool b =>
      have hp : p = if b then [1] else [0] := by
        cases hb : b <;> rw [hb] at h <;> simpa using h.symm
      cases hb : b <;> rw [hb] at hp <;> simp [hp]
    case integer.vint sgn i =>
      unfold Integer.serialize at h
      dsimp only at h
      split at h
      · rename_i bs heq
        have hp : p = bs := by simpa using h.symm
        have hlen := int_to_bytes_length heq
        rw [hp, hlen]
        omega
      · exact absurd h Except.noConfusion
    case str.vstr ml s =>
      split at h
      · have hp : p = 1 :: utf8Encode s := by simpa using h.symm
        simp [hp]
      · exact absurd h Except.noConfusion
    case bytes.vbytes bs =>
      have hp : p = 1 :: bs := by simpa using h.symm
      simp [hp]
    case list.vlist inner es =>
      split at h
      · exact absurd h Except.noConfusion
      · rename_i chunks heq
        have hp : p = 1 :: chunks.flatten := by simpa using h.symm
        simp [hp]
    case record.vrec name rfs rname vals =>
      split at h
      · split at h
        · exact absurd h Except.noConfusion
        · rename_i chunks heq
          have hp : p = 1 :: chunks.flatten := by simpa using h.symm
          simp [hp]
      · exact absurd h Except.noConfusion

/-- A valid value sails through `__setattr__` unchanged. -/
theorem setattr_of_valid (fuel : Nat) (key : String) (f : FieldSpec) (v : Option Value)
    (h : validOptF fuel f v = true) : setattrStep fuel key f v = .ok v := by
  cases fuel with
  | zero => exact absurd h (by rw [validOptF.eq_def]; simp)
  | succ m =>
    cases v with
    | none =>
      rw [validOptF.eq_def] at h
      dsimp only at h
      simp only [Bool.and_eq_true] at h
      obtain ⟨ho, hd⟩ := h
      have hdef : f.default = none := Option.isNone_iff_eq_none.mp hd
      unfold setattrStep
      dsimp only
      rw [hdef]
      unfold check_optional
      rw [ho]
      simp
    | some x =>
      rw [validOptF.eq_def] at h
      dsimp only at h
      simp only [Bool.and_eq_true] at h
      obtain ⟨⟨hck, hct⟩, _⟩ := h
      have hck' := isOkE_eq_ok hck
      have hct' := isOkE_eq_ok hct
      unfold setattrStep
      dsimp only
      rw [hck']
      dsimp only
      rw [hct']

/-- Re-validating already-valid values in `FieldInstance.__init__`
reproduces them. -/
theorem construct_of_valid (fuel : Nat) : ∀ (fs : List (String × FieldSpec))
    (vals : List (Option Value)), fs.length = vals.length →
    ((fs.zip vals).all (fun pa => validOptF fuel pa.1.2 pa.2)) = true →
    constructF fuel fs vals = .ok vals := by
  intro fs
  induction fs with
  | nil =>
    intro vals hl _
    cases vals with
    | nil => rfl
    | cons v vs => simp at hl
  | cons kf fs ih =>
    intro vals hl hall
    obtain ⟨k, f⟩ := kf
    cases vals with
    | nil => simp at hl
    | cons v vs =>
      rw [List.zip_cons_cons, List.all_cons, Bool.and_eq_true] at hall
      obtain ⟨hv, hvs⟩ := hall
      rw [constructF, List.headD_cons, List.tail_cons]
      have h1 : setattrStep fuel k f v = .ok v := setattr_of_valid fuel k f v hv
      rw [h1]
      have hlen : fs.length = vs.length := by
        simp at hl
        omega
      rw [ih vs hlen hvs]

theorem append_instance_cancel {a b : String} (h : a ++ "Instance" = b ++ "Instance") :
    a = b := by
  have hd : a.data ++ "Instance".data = b.data ++ "Instance".data := by
    rw [← String.data_append, ← String.data_append, h]
  have hdata : a.data = b.data := List.append_cancel_right hd
  cases a
  cases b
  exact congrArg String.mk hdata

/-- Parsing the serialized wire: marker byte, then a well-formed chunk
stream. -/
theorem parseChunks_marker (ps : List (List Nat × List Nat))
    (h : ∀ p ∈ ps, GoodChunk p.1 p.2) :
    parseChunks (1 :: joinWires ps) = ps.map Prod.snd := by
  unfold parseChunks
  rw [show (1 :: joinWires ps : List Nat) = [1] ++ joinWires ps from rfl]
  have hlen : ([1] ++ joinWires ps).length = 1 + (joinWires ps).length := by
    simp [Nat.add_comm]
  rw [hlen]
  have hsh : parseChunksF (1 + (joinWires ps).length) ([1] ++ joinWires ps) 1 =
      parseChunksF (1 + (joinWires ps).length) (joinWires ps) 0 := by
    have h0 := parseChunksF_shift (1 + (joinWires ps).length) [1] (joinWires ps) 0
    simpa using h0
  rw [hsh, parse_stream ps _ h (by omega)]

theorem except_bind_ok {α β : Type} {x : Except Err α} {g : α → Except Err β} {r : β}
    (h : (x >>= g) = .ok r) : ∃ a, x = .ok a ∧ g a = .ok r := by
  cases x with
  | ok a => exact ⟨a, rfl, h⟩
  | error e => exact absurd h Except.noConfusion

theorem encodeChunk_some_ok {ser : Value → Except Err (List Nat)} {x : Value}
    {c : List Nat} (h : encodeChunk ser (some x) = .ok c) :
    ∃ dx el, ser x = .ok dx ∧ encode_length dx.length = .ok el ∧ c = el ++ dx := by
  unfold encodeChunk at h
  dsimp only at h
  cases hs : ser x with
  | error e =>
    rw [hs] at h
    exact absurd h Except.noConfusion
  | ok dx =>
    rw [hs] at h
    dsimp only at h
    cases he : encode_length dx.length with
    | error e =>
      rw [he] at h
      exact absurd h Except.noConfusion
    | ok el =>
      rw [he] at h
      exact ⟨dx, el, rfl, he, by simpa using h.symm⟩

theorem list_rt_aux (fuel : Nat) (inner : FieldSpec)
    (IH : ∀ (g : FieldSpec) (w : Value) (bs : List Nat), g.size ≤ fuel →
      validOptF fuel g (some w) = true → serializeVF fuel g w = .ok bs →
      deserializeVF fuel g bs = .ok w)
    (hsize : inner.size ≤ fuel) :
    ∀ (es : List (Option Value)) (chunks : List (List Nat)),
      (es.all (fun e => match e with
        | some x => validOptF fuel inner (some x)
        | none => false)) = true →
      es.mapM (encodeChunk (serializeVF fuel inner)) = .ok chunks →
      ∃ (ps : List (List Nat × List Nat)) (ws : List Value),
        joinWires ps = chunks.flatten ∧ (∀ q ∈ ps, GoodChunk q.1 q.2) ∧
        (ps.map Prod.snd).mapM (deserializeVF fuel inner) = .ok ws ∧
        ws.map some = es := by
  intro es
  induction es with
  | nil =>
    intro chunks _ hmap
    have hc : chunks = [] := by
      rw [List.mapM_nil] at hmap
      exact (Except.ok.inj hmap).symm
    subst hc
    exact ⟨[], [], rfl, by simp, rfl, rfl⟩
  | cons e es ih =>
    intro chunks hall hmap
    rw [List.all_cons, Bool.and_eq_true] at hall
    obtain ⟨he, hes⟩ := hall
    obtain ⟨x, rfl⟩ : ∃ x, e = some x := by
      cases e with
      | none => exact absurd he (by simp)
      | some x => exact ⟨x, rfl⟩
    rw [List.mapM_cons] at hmap
    obtain ⟨c, hc, hrest⟩ := except_bind_ok hmap
    obtain ⟨cs, hcs, hpure⟩ := except_bind_ok hrest
    have hchunks : chunks = c :: cs := (Except.ok.inj hpure).symm
    subst hchunks
    obtain ⟨dx, el, hser, henc, hcv⟩ := encodeChunk_some_ok hc
    subst hcv
    obtain ⟨ps, ws, hjoin, hgood, hdes, hws⟩ := ih cs hes hcs
    refine ⟨(el ++ dx, dx) :: ps, x :: ws, ?_, ?_, ?_, ?_⟩
    · rw [show joinWires ((el ++ dx, dx) :: ps) = (el ++ dx) ++ joinWires ps from by
        simp [joinWires]]
      rw [hjoin]
      simp
    · intro q hq
      rcases List.mem_cons.mp hq with hq1 | hq2
      · subst hq1
        unfold GoodChunk
        refine Or.inr ⟨?_, el, henc, rfl⟩
        have hpos := serializeVF_ok_pos hser
        show dx ≠ []
        intro hnil
        rw [hnil] at hpos
        simp at hpos
      · exact hgood q hq2
    · rw [show ((el ++ dx, dx) :: ps).map Prod.snd = dx :: ps.map Prod.snd from by simp]
      rw [List.mapM_cons]
      have hd : deserializeVF fuel inner dx = .ok x := IH inner x dx hsize he hser
      rw [hd, hdes]
      rfl
    · simp [hws]

theorem record_rt_aux (fuel : Nat)
    (IH : ∀ (g : FieldSpec) (w : Value) (bs : List Nat), g.size ≤ fuel →
      validOptF fuel g (some w) = true → serializeVF fuel g w = .ok bs →
      deserializeVF fuel g bs = .ok w) :
    ∀ (fs : List (String × FieldSpec)) (vals : List (Option Value))
      (chunks : List (List Nat)),
      (∀ q ∈ fs, (Prod.snd q).size ≤ fuel) →
      fs.length = vals.length →
      ((fs.zip vals).all (fun pa => validOptF fuel pa.1.2 pa.2)) = true →
      ((fs.zip vals).mapM (fun pa => encodeChunk (serializeVF fuel pa.1.2) pa.2)) =
        .ok chunks →
      ∃ ps : List (List Nat × List Nat),
        joinWires ps = chunks.flatten ∧ (∀ q ∈ ps, GoodChunk q.1 q.2) ∧
        ((fs.zip (ps.map Prod.snd)).mapM
          (fun pc => decodeKwarg (deserializeVF fuel pc.1.2) pc.2)) = .ok vals := by
  intro fs
  induction fs with
  | nil =>
    intro vals chunks _ hlen _ hmap
    have hvals : vals = [] := by
      cases vals with
      | nil => rfl
      | cons v vs => simp at hlen
    subst hvals
    have hc : chunks = [] := by
      rw [List.zip_nil_left, List.mapM_nil] at hmap
      exact (Except.ok.inj hmap).symm
    subst hc
    exact ⟨[], rfl, by simp, rfl⟩
  | cons kf fs ih =>
    intro vals chunks hsz hlen hall hmap
    obtain ⟨k, g⟩ := kf
    cases vals with
    | nil => simp at hlen
    | cons v vs =>
      rw [List.zip_cons_cons, List.all_cons, Bool.and_eq_true] at hall
      obtain ⟨hv, hvs⟩ := hall
      rw [List.zip_cons_cons, List.mapM_cons] at hmap
      obtain ⟨c, hc, hrest⟩ := except_bind_ok hmap
      obtain ⟨cs, hcs, hpure⟩ := except_bind_ok hrest
      have hchunks : chunks = c :: cs := (Except.ok.inj hpure).symm
      subst hchunks
      have hszg : g.size ≤ fuel := hsz (k, g) (by simp)
      have hszr : ∀ q ∈ fs, (Prod.snd q).size ≤ fuel := fun q hq => hsz q (by simp [hq])
      have hlenr : fs.length = vs.length := by simp at hlen; omega
      obtain ⟨ps, hjoin, hgood, hdec⟩ := ih vs cs hszr hlenr hvs hcs
      cases v with
      | none =>
        -- absent field: chunk is the absence byte
        have hcv : c = [0] := by
          unfold encodeChunk at hc
          dsimp only at hc
          exact (Except.ok.inj hc).symm
        subst hcv
        refine ⟨([0], []) :: ps, ?_, ?_, ?_⟩
        · rw [show joinWires (([0], []) :: ps) = [0] ++ joinWires ps from by simp [joinWires]]
          rw [hjoin]
          simp
        · intro q hq
          rcases List.mem_cons.mp hq with hq1 | hq2
          · subst hq1
            unfold GoodChunk
            exact Or.inl ⟨rfl, rfl⟩
          · exact hgood q hq2
        · rw [show (([0], ([] : List Nat)) :: ps).map Prod.snd = [] :: ps.map Prod.snd from by
            simp]
          rw [List.zip_cons_cons, List.mapM_cons]
          rw [show decodeKwarg (deserializeVF fuel g) [] = .ok none from rfl]
          rw [hdec]
          rfl
      | some x =>
        obtain ⟨dx, el, hser, henc, hcv⟩ := encodeChunk_some_ok hc
        subst hcv
        have hdx : deserializeVF fuel g dx = .ok x := IH g x dx hszg hv hser
        have hpos := serializeVF_ok_pos hser
        have hdxne : dx ≠ [] := by
          intro hnil
          rw [hnil] at hpos
          simp at hpos
        refine ⟨(el ++ dx, dx) :: ps, ?_, ?_, ?_⟩
        · rw [show joinWires ((el ++ dx, dx) :: ps) = (el ++ dx) ++ joinWires ps from by
            simp [joinWires]]
          rw [hjoin]
          simp
        · intro q hq
          rcases List.mem_cons.mp hq with hq1 | hq2
          · subst hq1
            unfold GoodChunk
            exact Or.inr ⟨hdxne, el, henc, rfl⟩
          · exact hgood q hq2
        · rw [show ((el ++ dx, dx) :: ps).map Prod.snd = dx :: ps.map Prod.snd from by simp]
          rw [List.zip_cons_cons, List.mapM_cons]
          have hstep : decodeKwarg (deserializeVF fuel g) dx = .ok (some x) := by
            unfold decodeKwarg
            rw [if_neg hdxne, hdx]
          rw [hstep, hdec]
          rfl

/-- Master round trip: a recursively valid value whose serialization
succeeds is reproduced exactly by deserialization. -/
theorem rt_master : ∀ (fuel : Nat) (f : FieldSpec) (v : Value) (bs : List Nat),
    f.size ≤ fuel → validOptF fuel f (some v) = true → serializeVF fuel f v = .ok bs →
    deserializeVF fuel f bs = .ok v := by
  intro fuel
  induction fuel with
  | zero =>
    intro f v bs hsz hval hser
    exact absurd hval (by rw [validOptF.eq_def]; simp)
  | succ m ih =>
    intro f v bs hsz hval hser
    obtain ⟨o, d, t⟩ := f
    rw [serializeVF.eq_def] at hser
    rw [validOptF.eq_def] at hval
    dsimp only at hval
    simp only [Bool.and_eq_true] at hval
    obtain ⟨⟨hck, hct⟩, hdeep⟩ := hval
    cases t <;> cases v <;> dsimp only [FieldSpec.ty] at hser hdeep hct hck <;>
      try exact absurd hser Except.noConfusion
    case boolean.vbool b =>
      have hbs : bs = if b then [1] else [0] := by simpa using hser.symm
      subst hbs
      rw [deserializeVF.eq_def]
      dsimp only [FieldSpec.ty]
      cases b <;> simp
    case integer.vint sgn i =>
      unfold Integer.serialize at hser
      dsimp only at hser
      cases hitb : int_to_bytes
          (max ((((if sgn = true ∧ 0 < i ∧ int_bit_length i % 8 = 0 then int_bit_length i + 1
            else int_bit_length i)) + 7) >>> 3) 1) i sgn with
      | none => rw [hitb] at hser; exact absurd hser Except.noConfusion
      | some bs' =>
        rw [hitb] at hser
        have hbs : bs = bs' := by simpa using hser.symm
        subst hbs
        rw [deserializeVF.eq_def]
        dsimp only [FieldSpec.ty]
        cases sgn with
        | true => simp [from_bytes_signed_int_to_bytes hitb]
        | false => simp [from_bytes_be_int_to_bytes hitb]
    case str.vstr ml s =>
      split at hser
      · rename_i hallv
        have hbs : bs = 1 :: utf8Encode s := by simpa using hser.symm
        subst hbs
        rw [deserializeVF.eq_def]
        dsimp only [FieldSpec.ty]
        rw [show (1 :: utf8Encode s : List Nat).drop 1 = utf8Encode s from rfl]
        rw [utf8Decode_encode s hallv]
      · exact absurd hser Except.noConfusion
    case bytes.vbytes bv =>
      have hbs : bs = 1 :: bv := by simpa using hser.symm
      subst hbs
      rw [deserializeVF.eq_def]
      dsimp only [FieldSpec.ty]
      rfl
    case list.vlist inner es =>
      split at hser
      · exact absurd hser Except.noConfusion
      · rename_i chunks heq
        have hbs : bs = 1 :: chunks.flatten := by simpa using hser.symm
        subst hbs
        have hszin : inner.size ≤ m := by
          rw [FieldSpec.size, FieldTy.size] at hsz
          omega
        obtain ⟨ps, ws, hjoin, hgood, hdes, hws⟩ :=
          list_rt_aux m inner ih hszin es chunks hdeep heq
        rw [deserializeVF.eq_def]
        dsimp only [FieldSpec.ty]
        rw [← hjoin, parseChunks_marker ps hgood, hdes]
        dsimp only
        rw [hws]
    case record.vrec name rfs rname vals =>
      -- the class-name check forces the record names to agree
      have hct' := isOkE_eq_ok hct
      rw [check_typeF.eq_def] at hct'
      dsimp only [FieldSpec.ty, pyClassName, pyTypeName] at hct'
      have hname : rname = name := by
        by_cases hn : rname ++ "Instance" = name ++ "Instance"
        · exact append_instance_cancel hn
        · rw [if_neg hn] at hct'
          exact absurd hct' Except.noConfusion
      subst hname
      split at hser
      · rename_i hlenle
        cases hmm : ((FieldList.toList rfs).zip vals).mapM
            (fun pa => encodeChunk (serializeVF m pa.1.2) pa.2) with
        | error e => rw [hmm] at hser; exact absurd hser Except.noConfusion
        | ok chunks =>
          rw [hmm] at hser
          have hbs : bs = 1 :: chunks.flatten := by simpa using hser.symm
          subst hbs
          simp only [Bool.and_eq_true] at hdeep
          obtain ⟨hlenb, hallv⟩ := hdeep
          have hlen : (FieldList.toList rfs).length = vals.length := eq_of_beq hlenb
          have hszf : ∀ q ∈ FieldList.toList rfs, (Prod.snd q).size ≤ m := by
            intro q hq
            obtain ⟨qk, qf⟩ := q
            have := mem_toList_size_lt rfs qk qf hq
            rw [FieldSpec.size, FieldTy.size] at hsz
            show qf.size ≤ m
            omega
          obtain ⟨ps, hjoin, hgood, hdec⟩ :=
            record_rt_aux m ih (FieldList.toList rfs) vals chunks hszf hlen hallv hmm
          rw [deserializeVF.eq_def]
          dsimp only [FieldSpec.ty]
          rw [← hjoin, parseChunks_marker ps hgood, hdec]
          dsimp only
          unfold makeF
          rw [construct_of_valid m (FieldList.toList rfs) vals hlen hallv]
          dsimp only
          have hchk : checkF (m + 1) (FieldSpec.mk o d (FieldTy.record rname rfs))
              (some (Value.vrec rname vals)) = .ok () := by
            rw [checkF.eq_def]
            dsimp only [FieldSpec.ty]
          rw [hchk]
          have hopt : check_optional (FieldSpec.mk o d (FieldTy.record rname rfs))
              (some (Value.vrec rname vals)) = .ok () := by
            unfold check_optional
            simp
          rw [hopt]
          have htyp : check_typeF (m + 1) (FieldSpec.mk o d (FieldTy.record rname rfs))
              (some (Value.vrec rname vals)) = .ok () := by
            rw [check_typeF.eq_def]
            dsimp only [FieldSpec.ty, pyClassName, pyTypeName]
            rw [if_pos rfl]
          rw [htyp]
      · exact absurd hser Except.noConfusion

theorem append_Instance_ne (n s : String) (h : s.length < 8) : n ++ "Instance" ≠ s := by
  intro he
  have hlen := congrArg String.length he
  rw [String.length_append] at hlen
  have h8 : ("Instance" : String).length = 8 := rfl
  omega

theorem all_zip_self (m : Nat) (l : List (Option Value))
    (h : ∀ e ∈ l, ∀ x, e = some x → pyEqF m x x = true) :
    ((l.zip l).all (fun pq =>
      match pq with
      | (none, none) => true
      | (some x, some y) => pyEqF m x y
      | _ => false)) = true := by
  induction l with
  | nil => rfl
  | cons e es ih =>
    rw [List.zip_cons_cons, List.all_cons, Bool.and_eq_true]
    constructor
    · cases e with
      | none => rfl
      | some x => exact h (some x) (by simp) x rfl
    · exact ih (fun e' he' x hx => h e' (by simp [he']) x hx)

theorem pyEqF_refl_of_valid : ∀ (fuel : Nat) (f : FieldSpec) (v : Value),
    validOptF fuel f (some v) = true → pyEqF fuel v v = true := by
  intro fuel
  induction fuel with
  | zero =>
    intro f v h
    exact absurd h (by rw [validOptF.eq_def]; simp)
  | succ m ih =>
    intro f v hval
    rw [validOptF.eq_def] at hval
    dsimp only at hval
    simp only [Bool.and_eq_true] at hval
    obtain ⟨⟨hck, hct⟩, hdeep⟩ := hval
    obtain ⟨o, d, t⟩ := f
    rw [pyEqF.eq_def]
    cases v with
    | vbool b => simp
    | vint i => simp
    | vstr s => simp
    | vbytes bs => simp
    | vlist es =>
      cases t <;> dsimp only [FieldSpec.ty] at hdeep hct
      case list inner =>
        dsimp only
        rw [Bool.and_eq_true]
        refine ⟨by simp, ?_⟩
        apply all_zip_self
        intro e he x hx
        subst hx
        have hv : validOptF m inner (some x) = true := by
          have := List.all_eq_true.mp hdeep (some x) he
          simpa using this
        exact ih inner x hv
      all_goals {
        have hct' := isOkE_eq_ok hct
        rw [check_typeF.eq_def] at hct'
        dsimp only [FieldSpec.ty, pyClassName, pyTypeName] at hct'
        first
        | (rw [if_neg (by decide)] at hct'
           exact absurd hct' Except.noConfusion)
        | (rw [if_neg (Ne.symm (append_Instance_ne _ _ (by decide)))] at hct'
           exact absurd hct' Except.noConfusion)
      }
    | vrec rn vals =>
      cases t <;> dsimp only [FieldSpec.ty] at hdeep hct
      case record name rfs =>
        dsimp only
        simp only [Bool.and_eq_true] at hdeep
        obtain ⟨hlenb, hallv⟩ := hdeep
        have hlen : (FieldList.toList rfs).length = vals.length := eq_of_beq hlenb
        rw [Bool.and_eq_true, Bool.and_eq_true]
        refine ⟨⟨by simp, by simp⟩, ?_⟩
        apply all_zip_self
        -- each value in `vals` is valid against its aligned field spec
        have hmem : ∀ (fs' : List (String × FieldSpec)) (vals' : List (Option Value)),
            fs'.length = vals'.length →
            ((fs'.zip vals').all (fun pa => validOptF m pa.1.2 pa.2)) = true →
            ∀ e ∈ vals', ∀ x, e = some x → pyEqF m x x = true := by
          intro fs'
          induction fs' with
          | nil =>
            intro vals' hl _ e he
            cases vals' with
            | nil => simp at he
            | cons a b => simp at hl
          | cons kg fs'' ihf =>
            intro vals' hl hall e he x hx
            cases vals' with
            | nil => simp at he
            | cons v vs =>
              rw [List.zip_cons_cons, List.all_cons, Bool.and_eq_true] at hall
              obtain ⟨h1, h2⟩ := hall
              rcases List.mem_cons.mp he with rfl | hmem2
              · subst hx
                exact ih kg.2 x (by simpa using h1)
              · exact ihf vs (by simp at hl; omega) h2 e hmem2 x hx
        exact hmem (FieldList.toList rfs) vals hlen hallv
      case list inner =>
        have hct' := isOkE_eq_ok hct
        exact absurd hct' Except.noConfusion
      all_goals {
        have hct' := isOkE_eq_ok hct
        rw [check_typeF.eq_def] at hct'
        dsimp only [FieldSpec.ty, pyClassName, pyTypeName] at hct'
        rw [if_neg (append_Instance_ne _ _ (by decide))] at hct'
        exact absurd hct' Except.noConfusion
      }

theorem byte_width_le_six {n : Nat} (h : n < 2 ^ 48) : (bit_length n + 7) >>> 3 ≤ 6 := by
  have hbl : bit_length n ≤ 48 := (bit_length_le_iff n 48).mpr h
  have hshift : (bit_length n + 7) >>> 3 = (bit_length n + 7) / 8 := by
    simp [Nat.shiftRight_eq_div_pow]
  omega

theorem encode_length_ok_lt48 (n : Nat) (h : n < 2 ^ 48) :
    ∃ e, encode_length n = .ok e := by
  unfold encode_length
  by_cases hc : 0xfa ≤ n
  · rw [if_pos hc, to_bytes_be_length, if_neg (by have := byte_width_le_six h; omega)]
    exact ⟨_, rfl⟩
  · rw [if_neg hc]
    exact ⟨_, rfl⟩

theorem wireChunk_good (it : List Nat) (h : it.length < 2 ^ 48) :
    GoodChunk (wireChunk it) it := by
  by_cases hnil : it = []
  · subst hnil
    unfold wireChunk GoodChunk
    rw [if_pos rfl]
    exact Or.inl ⟨rfl, rfl⟩
  · obtain ⟨e, he⟩ := encode_length_ok_lt48 it.length h
    unfold wireChunk GoodChunk
    rw [if_neg hnil, he]
    exact Or.inr ⟨hnil, e, rfl, rfl⟩

theorem parse_mkWire (items : List (List Nat)) (h : ∀ it ∈ items, it.length < 2 ^ 48) :
    parseChunks (mkWire items) = items := by
  have hform : mkWire items = 1 :: joinWires (items.map (fun it => (wireChunk it, it))) := by
    unfold mkWire joinWires
    rw [List.map_map]
    rfl
  rw [hform, parseChunks_marker]
  · rw [List.map_map]
    exact List.map_id items
  · intro q hq
    obtain ⟨it, hit, rfl⟩ := List.mem_map.mp hq
    exact wireChunk_good it (h it hit)

theorem zip_take_right (l : List (String × FieldSpec)) :
    ∀ (t : List (List Nat)), l.zip t = l.zip (t.take l.length) := by
  induction l with
  | nil => intro t; simp
  | cons a l ih =>
    intro t
    cases t with
    | nil => simp
    | cons b t => simp [List.zip_cons_cons, ih t]

theorem zip_take_left (l : List (String × FieldSpec)) :
    ∀ (t : List (List Nat)), l.zip t = (l.take t.length).zip t := by
  induction l with
  | nil => intro t; simp
  | cons a l ih =>
    intro t
    cases t with
    | nil => simp
    | cons b t => simp [List.zip_cons_cons, ih t]

theorem mapM_decode_nil_chunks (fuel : Nat) :
    ∀ (pairs : List ((String × FieldSpec) × List Nat)), (∀ q ∈ pairs, q.2 = []) →
    pairs.mapM (fun pc => decodeKwarg (deserializeVF fuel pc.1.2) pc.2) =
      .ok (List.replicate pairs.length none) := by
  intro pairs
  induction pairs with
  | nil => intro h0; rfl
  | cons q qs ih =>
    intro hq
    rw [List.mapM_cons]
    have h2 : q.2 = [] := hq q (by simp)
    have hstep : decodeKwarg (deserializeVF fuel q.1.2) q.2 = .ok none := by
      rw [h2]
      rfl
    rw [hstep, ih (fun q' hq' => hq q' (by simp [hq']))]
    simp [List.replicate]
    rfl

theorem mapM_append_except {α β : Type} (g : α → Except Err β) :
    ∀ (xs ys : List α), (xs ++ ys).mapM g =
      (xs.mapM g).bind (fun as => (ys.mapM g).bind (fun bs => .ok (as ++ bs))) := by
  intro xs
  induction xs with
  | nil =>
    intro ys
    rw [List.nil_append, List.mapM_nil]
    cases hm : ys.mapM g <;> rfl
  | cons x xs ih =>
    intro ys
    rw [List.cons_append, List.mapM_cons, List.mapM_cons, ih ys]
    cases hx : g x with
    | error e => rfl
    | ok b =>
      cases hxs : xs.mapM g with
      | error e => rfl
      | ok bs =>
        cases hys : ys.mapM g <;> rfl

theorem constructF_append_none (fuel : Nat) :
    ∀ (fs : List (String × FieldSpec)) (kw : List (Option Value)) (j : Nat),
      constructF fuel fs (kw ++ List.replicate j none) = constructF fuel fs kw := by
  intro fs
  induction fs with
  | nil => intro kw j; rfl
  | cons kf fs ih =>
    intro kw j
    obtain ⟨k, g⟩ := kf
    rw [constructF, constructF]
    cases kw with
    | nil =>
      cases j with
      | zero => rfl
      | succ j' =>
        rw [show ([] ++ List.replicate (j' + 1) (none : Option Value)) =
          none :: List.replicate j' none from by simp [List.replicate]]
        rw [List.headD_cons, List.tail_cons]
        rw [show ([] : List (Option Value)).headD none = none from rfl,
          show ([] : List (Option Value)).tail = [] from rfl]
        rw [show (List.replicate j' (none : Option Value)) =
          [] ++ List.replicate j' none from by simp]
        rw [ih [] j']
    | cons a kw' =>
      rw [List.cons_append, List.headD_cons, List.headD_cons, List.tail_cons, List.tail_cons]
      rw [ih kw' j]

theorem makeF_append_none (fuel : Nat) (f : FieldSpec) (name : String) (rfs : FieldList)
    (kw : List (Option Value)) (j : Nat) :
    makeF fuel f name rfs (kw ++ List.replicate j none) = makeF fuel f name rfs kw := by
  unfold makeF
  rw [constructF_append_none]

theorem deserializeVF_record_pad (fuel : Nat) (o : Bool) (d : Option Value)
    (name : String) (fs : FieldList) (items : List (List Nat))
    (h : ∀ it ∈ items, it.length < 2 ^ 48) :
    deserializeVF (fuel + 1) (FieldSpec.mk o d (.record name fs)) (mkWire items) =
      deserializeVF (fuel + 1) (FieldSpec.mk o d (.record name fs))
        (mkWire (items.take (FieldList.toList fs).length ++
          List.replicate ((FieldList.toList fs).length - items.length) [])) := by
  have hpad : ∀ it ∈ items.take (FieldList.toList fs).length ++
      List.replicate ((FieldList.toList fs).length - items.length) ([] : List Nat),
      it.length < 2 ^ 48 := by
    intro it hit
    rcases List.mem_append.mp hit with h1 | h2
    · exact h it (List.mem_of_mem_take h1)
    · rw [List.eq_of_mem_replicate h2]
      exact Nat.pos_pow_of_pos 48 (by omega)
  rw [deserializeVF.eq_def, deserializeVF.eq_def]
  dsimp only [FieldSpec.ty]
  rw [parse_mkWire items h, parse_mkWire _ hpad]
  by_cases hle : (FieldList.toList fs).length ≤ items.length
  · rw [Nat.sub_eq_zero_of_le hle, List.replicate_zero, List.append_nil,
      ← zip_take_right]
  · have hlt : items.length < (FieldList.toList fs).length := by omega
    rw [List.take_of_length_le (by omega)]
    have hzip2 : (FieldList.toList fs).zip
        (items ++ List.replicate ((FieldList.toList fs).length - items.length) []) =
        ((FieldList.toList fs).take items.length).zip items ++
          ((FieldList.toList fs).drop items.length).zip
            (List.replicate ((FieldList.toList fs).length - items.length) []) := by
      conv_lhs => rw [← List.take_append_drop items.length (FieldList.toList fs)]
      rw [List.zip_append (by rw [List.length_take_of_le (le_of_lt hlt)]),
        List.take_append_drop]
    rw [hzip2, mapM_append_except]
    have hnil2 : ∀ q ∈ ((FieldList.toList fs).drop items.length).zip
        (List.replicate ((FieldList.toList fs).length - items.length) ([] : List Nat)),
        q.2 = [] := by
      intro q hq
      exact List.eq_of_mem_replicate (List.of_mem_zip hq).2
    rw [mapM_decode_nil_chunks fuel _ hnil2, ← zip_take_left]
    cases hm : ((FieldList.toList fs).zip items).mapM
        (fun pc => decodeKwarg (deserializeVF fuel pc.1.2) pc.2) with
    | error e => rfl
    | ok kw =>
      show makeF fuel _ name fs kw = makeF fuel _ name fs (kw ++ List.replicate _ none)
      rw [makeF_append_none]

/-! ## Validation-error message shapes -/
theorem wrapInner_validation {e : Except Err Unit} {m : String}
    (h : wrapInner e = .error (.validation m)) : ∃ m0, m = "inner element " ++ m0 := by
  unfold wrapInner at h
  cases e with
  | ok u => exact absurd h Except.noConfusion
  | error err =>
    cases err with
    | validation m1 =>
      dsimp only at h
      injection h with h1
      injection h1 with h2
      exact ⟨m1, h2.symm⟩
    | other s =>
      dsimp only at h
      injection h with h1
      exact absurd h1 (fun hh => Err.noConfusion hh)

theorem listCheckLoop_validation (ec : Option Value → Except Err Unit) :
    ∀ (es : List (Option Value)) (m : String),
      listCheckLoop ec es = .error (.validation m) → ∃ m0, m = "inner element " ++ m0 := by
  intro es
  induction es with
  | nil => intro m h; exact absurd h Except.noConfusion
  | cons e es ih =>
    intro m h
    rw [listCheckLoop] at h
    cases hw : wrapInner (ec e) with
    | ok u =>
      rw [hw] at h
      exact ih m h
    | error err =>
      rw [hw] at h
      dsimp only at h
      injection h with h1
      exact wrapInner_validation (by rw [hw, h1])

theorem setattr_error_prefix (fuel : Nat) (key : String) (f : FieldSpec)
    (v0 : Option Value) (m : String)
    (h : setattrStep fuel key f v0 = .error (.validation m)) :
    ∃ m0, m = key ++ " " ++ m0 := by
  cases v0 with
  | none =>
    unfold setattrStep at h
    dsimp only at h
    cases hd : f.default with
    | none =>
      rw [hd] at h
      dsimp only at h
      cases hco : check_optional f none with
      | ok u => rw [hco] at h; exact absurd h Except.noConfusion
      | error err =>
        rw [hco] at h
        cases err with
        | validation m1 =>
          dsimp only at h
          injection h with h1
          injection h1 with h2
          exact ⟨m1, h2.symm⟩
        | other s =>
          dsimp only at h
          injection h with h1
          exact absurd h1 (fun hh => Err.noConfusion hh)
    | some x =>
      rw [hd] at h
      dsimp only at h
      cases hc : checkF fuel f (some x) with
      | error err =>
        rw [hc] at h
        cases err with
        | validation m1 =>
          dsimp only at h
          injection h with h1
          injection h1 with h2
          exact ⟨m1, h2.symm⟩
        | other s =>
          dsimp only at h
          injection h with h1
          exact absurd h1 (fun hh => Err.noConfusion hh)
      | ok u =>
        rw [hc] at h
        dsimp only at h
        cases hct : check_typeF fuel f (some x) with
        | error err =>
          rw [hct] at h
          cases err with
          | validation m1 =>
            dsimp only at h
            injection h with h1
            injection h1 with h2
            exact ⟨m1, h2.symm⟩
          | other s =>
            dsimp only at h
            injection h with h1
            exact absurd h1 (fun hh => Err.noConfusion hh)
        | ok u2 =>
          rw [hct] at h
          exact absurd h Except.noConfusion
  | some x =>
    unfold setattrStep at h
    dsimp only at h
    cases hc : checkF fuel f (some x) with
    | error err =>
      rw [hc] at h
      cases err with
      | validation m1 =>
        dsimp only at h
        injection h with h1
        injection h1 with h2
        exact ⟨m1, h2.symm⟩
      | other s =>
        dsimp only at h
        injection h with h1
        exact absurd h1 (fun hh => Err.noConfusion hh)
    | ok u =>
      rw [hc] at h
      dsimp only at h
      cases hct : check_typeF fuel f (some x) with
      | error err =>
        rw [hct] at h
        cases err with
        | validation m1 =>
          dsimp only at h
          injection h with h1
          injection h1 with h2
          exact ⟨m1, h2.symm⟩
        | other s =>
          dsimp only at h
          injection h with h1
          exact absurd h1 (fun hh => Err.noConfusion hh)
      | ok u2 =>
        rw [hct] at h
        exact absurd h Except.noConfusion

theorem checkF_list_validation (fuel : Nat) (inner : FieldSpec)
    (o : Bool) (dflt : Option Value) (es : List (Option Value)) (m : String)
    (h : checkF fuel (FieldSpec.mk o dflt (FieldTy.list inner)) (some (Value.vlist es)) =
      .error (.validation m)) : ∃ m0, m = "inner element " ++ m0 := by
  cases fuel with
  | zero => exact absurd h (fun hh => by injection hh with h1; exact Err.noConfusion h1)
  | succ n =>
    rw [checkF.eq_def] at h
    dsimp only [FieldSpec.ty, iterElems] at h
    exact listCheckLoop_validation _ es m h

theorem check_typeF_list_validation (fuel : Nat) (inner : FieldSpec)
    (o : Bool) (dflt : Option Value) (es : List (Option Value)) (m : String)
    (h : check_typeF fuel (FieldSpec.mk o dflt (FieldTy.list inner)) (some (Value.vlist es)) =
      .error (.validation m)) : ∃ m0, m = "inner element " ++ m0 := by
  cases fuel with
  | zero => exact absurd h (fun hh => by injection hh with h1; exact Err.noConfusion h1)
  | succ n =>
    rw [check_typeF.eq_def] at h
    dsimp only [FieldSpec.ty] at h
    exact listCheckLoop_validation _ es m h

/-- `make` on a record field whose construction succeeds: the record-level
`check`, `check_optional` and `check_type` all pass on the fresh instance. -/
theorem makeF_record_ok (fuel : Nat) (o : Bool) (dflt : Option Value) (name : String)
    (fs : FieldList) (kwargs vals : List (Option Value))
    (hcon : constructF fuel (FieldList.toList fs) kwargs = .ok vals) :
    makeF fuel (FieldSpec.mk o dflt (FieldTy.record name fs)) name fs kwargs =
      .ok (Value.vrec name vals) := by
  unfold makeF
  rw [hcon]
  dsimp only
  have h1 : checkF (fuel + 1) (FieldSpec.mk o dflt (FieldTy.record name fs))
      (some (Value.vrec name vals)) = .ok () := by
    rw [checkF.eq_def]
    dsimp only [FieldSpec.ty]
  have h2 : check_optional (FieldSpec.mk o dflt (FieldTy.record name fs))
      (some (Value.vrec name vals)) = .ok () := by
    unfold check_optional
    simp [FieldSpec.optional]
  have h3 : check_typeF (fuel + 1) (FieldSpec.mk o dflt (FieldTy.record name fs))
      (some (Value.vrec name vals)) = .ok () := by
    rw [check_typeF.eq_def]
    dsimp only [FieldSpec.ty, pyClassName, pyTypeName]
    rw [if_pos rfl]
  rw [h1]
  dsimp only
  rw [h2]
  dsimp only
  rw [h3]

/-! ## The claims -/
/-- C1 (amended): for every schema field `f` and validly constructed value
`v` **whose serialization succeeds**, deserializing the produced bytes
against the same schema yields a value that compares equal to `v` under
`FieldInstance.__eq__`.  The proviso is necessary: serialization can fail
on a valid record (see the counterexample with `-129`). -/
theorem claim1_round_trip (f : FieldSpec) (v : Value) (bs : List Nat)
    (hval : validOpt f (some v) = true) (hser : serializeValue f v = .ok bs) :
    ∃ w, deserializeValue f bs = .ok w ∧ pyEqF f.size w v = true :=
  ⟨v, rt_master f.size f v bs (le_refl _) hval hser,
    pyEqF_refl_of_valid f.size f v hval⟩

/-- C1 counterexample to the unconditional round-trip claim: the record
`R(x=-129)` with `x` a signed `Integer` field passes every optionality,
constraint and type check, yet `serialize` raises `OverflowError`
(`int.to_bytes` is called with one byte too few), so no round trip
exists for it. -/
theorem claim1_counterexample :
    validOpt exRecR (some (Value.vrec "R" [some (Value.vint (-129))])) = true ∧
    serializeValue exRecR (Value.vrec "R" [some (Value.vint (-129))]) =
      .error (.other "OverflowError") :=
  ⟨rfl, rfl⟩

theorem claim1_witness :
    validOpt exRecR (some (Value.vrec "R" [some (Value.vint 25)])) = true ∧
    serializeValue exRecR (Value.vrec "R" [some (Value.vint 25)]) = .ok [1, 1, 25] ∧
    ∃ w, deserializeValue exRecR [1, 1, 25] = .ok w ∧
      pyEqF exRecR.size w (Value.vrec "R" [some (Value.vint 25)]) = true :=
  ⟨rfl, rfl, claim1_round_trip exRecR (Value.vrec "R" [some (Value.vint 25)]) [1, 1, 25]
    rfl rfl⟩

/-- C2: the spec's description of signed `Integer.serialize` is the
intended minimal two's-complement behaviour, and the positive direction
(pad `128` to `0x00 0x80`, deserialize back to `128`) does hold — but the
code computes the byte count from `i.bit_length()`, which for negative
values in `(-256^k, -256^k/2)` (e.g. `-129`) is one byte short, so
`int.to_bytes` raises `OverflowError` even though a minimal
two's-complement encoding (`0xFF 0x7F`) exists: the stated property fails
for those integers. -/
theorem claim2_signed_integer :
    Integer.serialize true 128 = .ok [0, 128] ∧
    deserializeValue intField [0, 128] = .ok (Value.vint 128) ∧
    Integer.serialize true (-129) = .error (.other "OverflowError") ∧
    from_bytes_signed [255, 127] = (-129 : Int) :=
  ⟨rfl, rfl, rfl, rfl⟩

/-- C3 (amended): the length codec as implemented.  Lengths `1..0xF9` are
a single byte; length **`0` encodes as zero bytes** (`(0).to_bytes(0)`),
not as the byte `0x00` the spec's "single byte equal to the length"
implies; lengths `0xFA ≤ n < 2^48` get a tag byte `0xF9 + k` followed by
the `k` minimal big-endian bytes (`256^(k-1) ≤ n < 256^k`); the decoder
inverts every encoding of a positive length; `300` frames as
`0xFB 0x01 0x2C` and `5` as `0x05`. -/
theorem claim3_length_codec :
    (∀ n, 1 ≤ n → n ≤ 0xf9 → encode_length n = .ok [n]) ∧
    (encode_length 0 = .ok []) ∧
    (∀ n, 0xfa ≤ n → n < 2 ^ 48 →
      ∃ k, encode_length n = .ok ((k + 0xf9) :: to_bytes_be k n) ∧
        (to_bytes_be k n).length = k ∧ n < 256 ^ k ∧ 256 ^ (k - 1) ≤ n) ∧
    (∀ n e tail, 1 ≤ n → encode_length n = .ok e →
      decode_length (e ++ tail) 0 = (n, e.length)) ∧
    encode_length 300 = .ok [0xfb, 1, 0x2c] ∧
    encode_length 5 = .ok [5] := by
  refine ⟨fun n h1 h2 => encode_length_small h1 h2, encode_length_zero,
    fun n h1 h2 => ⟨(bit_length n + 7) >>> 3, encode_length_large h1 h2,
      to_bytes_be_length _ _, lt_pow_byte_width n, pow_byte_width_pred_le n (by omega)⟩,
    fun n e tail h1 he => decode_encode h1 he tail, rfl, rfl⟩

/-- C3 counterexample to "a single byte equal to the length" for `n = 0`:
the encoder emits the empty byte string, not the single byte `0x00`. -/
theorem claim3_counterexample :
    encode_length 0 = .ok [] ∧ ([] : List Nat) ≠ [0] :=
  ⟨rfl, by decide⟩

theorem claim3_witness :
    encode_length 5 = .ok [5] ∧
    (∃ k, encode_length 300 = .ok ((k + 0xf9) :: to_bytes_be k 300) ∧
      (to_bytes_be k 300).length = k ∧ 300 < 256 ^ k ∧ 256 ^ (k - 1) ≤ 300) ∧
    decode_length ([0xfb, 1, 0x2c] ++ [9]) 0 = (300, [0xfb, 1, 0x2c].length) :=
  ⟨claim3_length_codec.1 5 (by decide) (by decide),
    claim3_length_codec.2.2.1 300 (by decide) (by decide),
    claim3_length_codec.2.2.2.1 300 [0xfb, 1, 0x2c] [9] (by decide) rfl⟩

/-- C4 (amended): the spec's "cannot represent empty bytes distinctly from
absence" is wrong for the implemented format.  An empty `Bytes`/`String`
value serializes under its presence byte `0x01` to the one-byte payload
`0x01`, giving the record wire `[1, 1, 1]`, while an absent field gives
the zero chunk `[1, 0]`; the two wires are distinct and each deserializes
back to its own record. -/
theorem claim4_empty_vs_absent :
    serializeValue exRecB (Value.vrec "B" [some (Value.vbytes [])]) = .ok [1, 1, 1] ∧
    serializeValue exRecB (Value.vrec "B" [none]) = .ok [1, 0] ∧
    deserializeValue exRecB [1, 1, 1] = .ok (Value.vrec "B" [some (Value.vbytes [])]) ∧
    deserializeValue exRecB [1, 0] = .ok (Value.vrec "B" [none]) ∧
    serializeValue exRecS (Value.vrec "S" [some (Value.vstr [])]) = .ok [1, 1, 1] ∧
    serializeValue exRecS (Value.vrec "S" [none]) = .ok [1, 0] ∧
    deserializeValue exRecS [1, 1, 1] = .ok (Value.vrec "S" [some (Value.vstr [])]) ∧
    deserializeValue exRecS [1, 0] = .ok (Value.vrec "S" [none]) ∧
    ([1, 1, 1] : List Nat) ≠ [1, 0] :=
  ⟨rfl, rfl, rfl, rfl, rfl, rfl, rfl, rfl, by decide⟩

/-- C4 counterexample to the claimed indistinguishability: the wire
encodings of `B(b=b'')` and `B(b=None)` differ. -/
theorem claim4_counterexample :
    serializeValue exRecB (Value.vrec "B" [some (Value.vbytes [])]) = .ok [1, 1, 1] ∧
    serializeValue exRecB (Value.vrec "B" [none]) = .ok [1, 0] ∧
    ([1, 1, 1] : List Nat) ≠ [1, 0] :=
  ⟨rfl, rfl, by decide⟩

/-- C5: `deserialize` pairs chunks with fields positionally (`zip`
truncates), so a wire with surplus chunks decodes exactly like the wire
truncated to the schema's field count, and a wire with too few chunks
decodes exactly like one padded with absent-value chunks up to the field
count: arity mismatches never fail on their own account. -/
theorem claim5_positional_pairing (o : Bool) (d : Option Value) (name : String)
    (fs : FieldList) (items : List (List Nat))
    (h : ∀ it ∈ items, it.length < 2 ^ 48) :
    deserializeValue (FieldSpec.mk o d (FieldTy.record name fs)) (mkWire items) =
      deserializeValue (FieldSpec.mk o d (FieldTy.record name fs))
        (mkWire (items.take (FieldList.toList fs).length ++
          List.replicate ((FieldList.toList fs).length - items.length) [])) := by
  unfold deserializeValue
  exact deserializeVF_record_pad (FieldTy.record name fs).size o d name fs items h

theorem claim5_witness :
    (∀ it ∈ ([[25], [99]] : List (List Nat)), List.length it < 2 ^ 48) ∧
    deserializeValue (FieldSpec.mk false none
        (FieldTy.record "R" (FieldList.cons "x" intField FieldList.nil)))
        (mkWire [[25], [99]]) =
      deserializeValue (FieldSpec.mk false none
        (FieldTy.record "R" (FieldList.cons "x" intField FieldList.nil)))
        (mkWire (([[25], [99]] : List (List Nat)).take
            (FieldList.toList (FieldList.cons "x" intField FieldList.nil)).length ++
          List.replicate ((FieldList.toList (FieldList.cons "x" intField FieldList.nil)).length -
            ([[25], [99]] : List (List Nat)).length) [])) :=
  ⟨by decide, claim5_positional_pairing false none "R"
    (FieldList.cons "x" intField FieldList.nil) [[25], [99]] (by decide)⟩

/-- C6: the length encoder fails — always with the `length too big`
validation error — exactly for lengths of `2^48` and above (minimal
representation wider than 6 bytes); below that bound it succeeds and its
output never exceeds a tag byte plus 6 length bytes. -/
theorem claim6_length_overflow (n : Nat) :
    (encode_length n = .error (.validation "length too big") ↔ 2 ^ 48 ≤ n) ∧
    (n < 2 ^ 48 → ∃ e, encode_length n = .ok e ∧ e.length ≤ 7) := by
  constructor
  · constructor
    · intro h
      by_contra hlt
      obtain ⟨e, he⟩ := encode_length_ok_lt48 n (by omega)
      rw [he] at h
      exact Except.noConfusion h
    · exact encode_length_too_big
  · intro hlt
    rcases Nat.eq_zero_or_pos n with h0 | hpos
    · subst h0
      exact ⟨[], encode_length_zero, by decide⟩
    rcases le_or_lt n 0xf9 with hsm | hlg
    · exact ⟨[n], encode_length_small hpos hsm, by rw [List.length_singleton]; omega⟩
    · refine ⟨_, encode_length_large hlg hlt, ?_⟩
      have hk : (bit_length n + 7) >>> 3 ≤ 6 := byte_width_le_six hlt
      rw [List.length_cons, to_bytes_be_length]
      omega

theorem claim6_witness :
    encode_length (2 ^ 48) = .error (.validation "length too big") ∧
    (∃ e, encode_length 300 = .ok e ∧ e.length ≤ 7) :=
  ⟨(claim6_length_overflow (2 ^ 48)).1.mpr (le_refl _),
    (claim6_length_overflow 300).2 (by norm_num)⟩

/-- C7: constructing a record that provides no value for a non-optional,
default-free field fails with the `cannot be None` validation error
carrying the field's name, and no instance is produced; the same
construction with the field marked optional succeeds with the field
absent. -/
theorem claim7_missing_required (name key : String) (ty : FieldTy) :
    make name (FieldList.cons key (FieldSpec.mk false none ty) FieldList.nil) [] =
      .error (.validation (key ++ " " ++ "cannot be None")) ∧
    make name (FieldList.cons key (FieldSpec.mk true none ty) FieldList.nil) [] =
      .ok (Value.vrec name [none]) := by
  constructor
  · rfl
  · unfold make recSpec
    exact makeF_record_ok
      (FieldSpec.mk false none (FieldTy.record name
        (FieldList.cons key (FieldSpec.mk true none ty) FieldList.nil))).size
      false none name (FieldList.cons key (FieldSpec.mk true none ty) FieldList.nil)
      [] [none] rfl

/-- C8: every validation error escaping a field assignment carries the
field's name (plus a space) prepended to its message, and on a
list-typed field holding a `list` value every validation error is
additionally wrapped with the `inner element ` marker by the list's
per-element loop before the field name is added, yielding the path
`<field> inner element <msg>`. -/
theorem claim8_error_paths (fuel : Nat) (key : String) (f : FieldSpec)
    (v0 : Option Value) (o : Bool) (dflt : Option Value) (inner : FieldSpec)
    (es : List (Option Value)) :
    (∀ m, setattrStep fuel key f v0 = .error (.validation m) →
      ∃ m0, m = key ++ " " ++ m0) ∧
    (∀ m, setattrStep fuel key (FieldSpec.mk o dflt (FieldTy.list inner))
        (some (Value.vlist es)) = .error (.validation m) →
      ∃ m0, m = key ++ " " ++ ("inner element " ++ m0)) := by
  constructor
  · exact fun m h => setattr_error_prefix fuel key f v0 m h
  · intro m h
    unfold setattrStep at h
    dsimp only at h
    cases hc : checkF fuel (FieldSpec.mk o dflt (FieldTy.list inner))
        (some (Value.vlist es)) with
    | error err =>
      rw [hc] at h
      cases err with
      | validation m1 =>
        dsimp only at h
        injection h with h1
        injection h1 with h2
        obtain ⟨m0, hm0⟩ := checkF_list_validation fuel inner o dflt es m1 hc
        exact ⟨m0, by rw [← h2, hm0]⟩
      | other s =>
        dsimp only at h
        injection h with h1
        exact absurd h1 (fun hh => Err.noConfusion hh)
    | ok u =>
      rw [hc] at h
      dsimp only at h
      cases hct : check_typeF fuel (FieldSpec.mk o dflt (FieldTy.list inner))
          (some (Value.vlist es)) with
      | error err =>
        rw [hct] at h
        cases err with
        | validation m1 =>
          dsimp only at h
          injection h with h1
          injection h1 with h2
          obtain ⟨m0, hm0⟩ := check_typeF_list_validation fuel inner o dflt es m1 hct
          exact ⟨m0, by rw [← h2, hm0]⟩
        | other s =>
          dsimp only at h
          injection h with h1
          exact absurd h1 (fun hh => Err.noConfusion hh)
      | ok u2 =>
        rw [hct] at h
        exact absurd h Except.noConfusion

theorem claim8_witness :
    setattrStep 3 "xs" (FieldSpec.mk false none (FieldTy.list intField))
      (some (Value.vlist [some (Value.vstr [115])])) =
      .error (.validation ("xs" ++ " " ++ ("inner element " ++ "is of type str, expected int"))) ∧
    ∃ m0, ("xs" ++ " " ++ ("inner element " ++ "is of type str, expected int") : String) =
      "xs" ++ " " ++ ("inner element " ++ m0) :=
  ⟨rfl, (claim8_error_paths 3 "xs" intField none false none intField
      [some (Value.vstr [115])]).2 _ rfl⟩

/-- C9: every successful serialization of a value — through any built-in
plugin or a record — produces a payload of at least one byte, so the
zero-length chunk is reserved for absent (`None`) fields and elements. -/
theorem claim9_payload_nonempty (f : FieldSpec) (v : Value) (p : List Nat)
    (h : serializeValue f v = .ok p) : 1 ≤ p.length :=
  serializeVF_ok_pos h

theorem claim9_witness :
    serializeValue (FieldSpec.mk false none FieldTy.boolean) (Value.vbool true) = .ok [1] ∧
    1 ≤ ([1] : List Nat).length :=
  ⟨rfl, claim9_payload_nonempty (FieldSpec.mk false none FieldTy.boolean)
    (Value.vbool true) [1] rfl⟩

/-- C10 (amended): `Field.__init__` and every subclass constructor raise
`Exception('Upgrade Encodium')`, and the classmethod `make` (which calls
`cls()`) therefore always raises — but not "before any field state is
initialized": `List.__init__` assigns `self.inner_field` **before**
delegating to the raising `Field.__init__`. -/
theorem claim10_constructor_raises (inner : FieldSpec) :
    Field.init = .error (.other "Upgrade Encodium") ∧
    (ListField.init inner).2 = .error (.other "Upgrade Encodium") ∧
    Field.make_classmethod = .error (.other "Upgrade Encodium") :=
  ⟨rfl, rfl, rfl⟩

/-- C10 counterexample to "before any field state is initialized":
`List.__init__` stores the inner field on `self` first, so at the moment
of the raise the instance state is not empty. -/
theorem claim10_counterexample :
    ListField.init intField = (some intField, .error (.other "Upgrade Encodium")) ∧
    (ListField.init intField).1 ≠ none :=
  ⟨rfl, fun hh => Option.noConfusion hh⟩
